import Mathlib

/-!
A verification development for two schema-processing scripts:
`merge_schemas.py` (merging path definitions of a comprehensive OpenAPI
document into an official one, normalizing naming conventions) and
`fix_merged_schema.py` (structural repairs and missing-component copy).

Python strings are modelled as `String` (with the underlying `List Char`),
Python dictionaries as ordered association lists (`YMap`), Python lists as
`YArr`, and YAML scalars as the remaining `Yaml` constructors.  Fallible
dictionary accesses are modelled in the `Except Unit` monad.
-/

/-! ## Strings: Python `startswith`, `in`, and `str.replace` -/

/-- `leadsB t s` holds when the character list `t` is an initial segment of
`s` (Python `s.startswith(t)` is `leadsB t.data s.data`). -/
def leadsB : List Char → List Char → Bool
  | [], _ => true
  | _ :: _, [] => false
  | c :: t, d :: s => c = d && leadsB t s

/-- `occursB t s` holds when `t` occurs as a contiguous run inside `s`
(Python `t in s` on strings). -/
def occursB (t : List Char) : List Char → Bool
  | [] => leadsB t []
  | c :: s' => leadsB t (c :: s') || occursB t s'

/-- One fuel-indexed pass of Python `s.replace(pat, rep)`: scan left to
right, replacing each non-overlapping occurrence of `pat` and resuming after
it.  The fuel only serves structural termination; `fuel = s.length` is
always enough for a non-empty `pat`. -/
def replaceGo (pat rep : List Char) : Nat → List Char → List Char
  | _, [] => []
  | 0, s => s
  | fuel + 1, c :: s' =>
    if leadsB pat (c :: s') then rep ++ replaceGo pat rep fuel ((c :: s').drop pat.length)
    else c :: replaceGo pat rep fuel s'

/-- Python `s.replace(pat, rep)` on character lists (for non-empty `pat`). -/
def replaceL (pat rep s : List Char) : List Char := replaceGo pat rep s.length s

/-- Python `s.replace(pat, rep)` on strings. -/
def pyReplace (s pat rep : String) : String := ⟨replaceL pat.data rep.data s.data⟩

/-- Python `t in s` on strings. -/
def strOccurs (t s : String) : Bool := occursB t.data s.data

/-- Python `s.startswith(t)` on strings. -/
def strStarts (t s : String) : Bool := leadsB t.data s.data

/-! ## The document tree: scalars, ordered sequences, ordered mappings -/

mutual

inductive Yaml where
  | str : String → Yaml
  | int : Int → Yaml
  | bool : Bool → Yaml
  | null : Yaml
  | map : YMap → Yaml
  | arr : YArr → Yaml
deriving DecidableEq

/-- An insertion-ordered mapping (a Python `dict` loaded from YAML). -/
inductive YMap where
  | nil : YMap
  | cons : String → Yaml → YMap → YMap
deriving DecidableEq

inductive YArr where
  | nil : YArr
  | cons : Yaml → YArr → YArr
deriving DecidableEq

end

namespace YMap

/-- First binding of a key (`d[k]` / `d.get(k)`; Python dicts have unique keys). -/
def find? : YMap → String → Option Yaml
  | .nil, _ => none
  | .cons k' v rest, k => if k' = k then some v else rest.find? k

/-- Python `k in d`. -/
def hasKey (m : YMap) (k : String) : Bool := (m.find? k).isSome

/-- Replace the value at the first binding of `k`, keeping its position;
identity when `k` is absent (a Python `d[k] = v` on a known-present key). -/
def update : YMap → String → Yaml → YMap
  | .nil, _, _ => .nil
  | .cons k' v' rest, k, v => if k' = k then .cons k v rest else .cons k' v' (rest.update k v)

/-- Python `d[k] = v`: overwrite in place when present, append at the end
otherwise. -/
def insert : YMap → String → Yaml → YMap
  | .nil, k, v => .cons k v .nil
  | .cons k' v' rest, k, v => if k' = k then .cons k v rest else .cons k' v' (rest.insert k v)

/-- Append a fresh binding at the end (Python insertion into a dict that
does not yet have the key). -/
def push : YMap → String → Yaml → YMap
  | .nil, k, v => .cons k v .nil
  | .cons k' v' rest, k, v => .cons k' v' (rest.push k v)

/-- The key list, in insertion order. -/
def keys : YMap → List String
  | .nil => []
  | .cons k _ rest => k :: rest.keys

/-- Keep the bindings whose key satisfies `p`. -/
def filterKeys (p : String → Bool) : YMap → YMap
  | .nil => .nil
  | .cons k v rest => if p k then .cons k v (filterKeys p rest) else filterKeys p rest

/-- Does the binding `(k, v)` occur in the mapping? -/
def memPair (k : String) (v : Yaml) : YMap → Bool
  | .nil => false
  | .cons k' v' rest => (k' = k && v' = v) || memPair k v rest

end YMap

namespace YArr

def contains (l : YArr) (y : Yaml) : Bool :=
  match l with
  | .nil => false
  | .cons v rest => v = y || rest.contains y

def filter (p : Yaml → Bool) : YArr → YArr
  | .nil => .nil
  | .cons v rest => if p v then .cons v (filter p rest) else filter p rest

def appendList : YArr → List Yaml → YArr
  | l, [] => l
  | .nil, y :: ys => .cons y (appendList .nil ys)
  | .cons v rest, ys => .cons v (appendList rest ys)

def ofList : List Yaml → YArr
  | [] => .nil
  | y :: ys => .cons y (ofList ys)

def toList : YArr → List Yaml
  | .nil => []
  | .cons v rest => v :: rest.toList

end YArr

/-- Association-table lookup for the fixed rename tables. -/
def tblLookup : List (String × String) → String → Option String
  | [], _ => none
  | (a, b) :: rest, k => if a = k then some b else tblLookup rest k

/-! ## `normalize_path` (merge_schemas.py lines 82-101) -/

/-- The parameter-token rename table of `normalize_path`. -/
def paramTokenTable : List (String × String) :=
  [("{oid}", "{orgId}"), ("{wid}", "{workspaceId}"), ("{attId}", "{attachmentId}"),
   ("{uid}", "{userId}"), ("{said}", "{serviceAccountId}"), ("{vsId}", "{formId}")]

/-- `normalize_path`: strip the `/api` prefix by plain substring
replacement (`/api/` then `/api`), then rewrite each parameter token. -/
def normalizePath (path : String) : String :=
  let p1 := pyReplace path "/api/" "/"
  let p2 := pyReplace p1 "/api" "/"
  paramTokenTable.foldl (fun p kv => pyReplace p kv.1 kv.2) p2

/-! ## `convert_param_refs` (merge_schemas.py lines 19-42) -/

/-- The `$ref` rename table of `convert_param_refs`. -/
def refParamTable : List (String × String) :=
  [("OrgId", "orgIdPathParam"), ("WorkspaceId", "workspaceIdPathParam"),
   ("DocId", "docIdPathParam"), ("TableId", "tableIdPathParam"),
   ("AttachmentId", "attachmentIdPathParam"), ("UserId", "userIdPathParam")]

/-- Rewrite one `$ref` string value: for each table entry in order, if
`parameters/<old>` occurs in the value, replace every occurrence of that
substring by `parameters/<new>`. -/
def rewriteRefString (s : String) : String :=
  refParamTable.foldl
    (fun v kv =>
      if strOccurs ("parameters/" ++ kv.1) v then
        pyReplace v ("parameters/" ++ kv.1) ("parameters/" ++ kv.2)
      else v)
    s

mutual

def convertParamRefs : Yaml → Yaml
  | .map m => .map (convertParamRefsMap m)
  | .arr l => .arr (convertParamRefsArr l)
  | y => y

def convertParamRefsMap : YMap → YMap
  | .nil => .nil
  | .cons k v rest =>
    -- The source rewrites a string `$ref` value and then recurses into the
    -- rewritten string, which the recursion leaves unchanged; the two steps
    -- are fused here.  A non-string `$ref` value is recursed into as usual.
    let v' :=
      if k = "$ref" then
        match v with
        | .str s => .str (rewriteRefString s)
        | w => convertParamRefs w
      else convertParamRefs v
    .cons k v' (convertParamRefsMap rest)

def convertParamRefsArr : YArr → YArr
  | .nil => .nil
  | .cons v rest => .cons (convertParamRefs v) (convertParamRefsArr rest)

end

/-! ## `convert_param_names_in_path` (merge_schemas.py lines 44-80) -/

/-- The parameter-name rename table of `convert_param_names_in_path`
(identity entries are kept, as in the source). -/
def paramNameTable : List (String × String) :=
  [("oid", "orgId"), ("wid", "workspaceId"), ("docId", "docId"), ("tableId", "tableId"),
   ("attId", "attachmentId"), ("uid", "userId"), ("said", "serviceAccountId"),
   ("vsId", "formId"), ("colId", "colId"), ("webhookId", "webhookId"),
   ("proposalId", "proposalId")]

mutual

def convertParamNamesInPath : Yaml → Yaml
  | .map m => .map (cpnMap m)
  | .arr l => .arr (cpnArr l)
  | y => y

def cpnMap : YMap → YMap
  | .nil => .nil
  | .cons k v rest =>
    let v' :=
      if k = "parameters" then
        match v with
        | .arr l => .arr (cpnParams l)
        | w => convertParamNamesInPath w
      else convertParamNamesInPath v
    .cons k v' (cpnMap rest)

def cpnArr : YArr → YArr
  | .nil => .nil
  | .cons v rest => .cons (convertParamNamesInPath v) (cpnArr rest)

/-- Elements of a `parameters` list: the source renames a table-listed
string `name` (updating the first `name` binding in place) and then recurses
into the updated mapping; the rename and the recursion are fused here
(the recursion leaves the new string value unchanged).  Non-string `name`
values are not in the table and are left alone. -/
def cpnParams : YArr → YArr
  | .nil => .nil
  | .cons p rest =>
    let p' :=
      match p with
      | .map pm =>
        match pm.find? "name" with
        | some (.str s) =>
          match tblLookup paramNameTable s with
          | some newName => .map (cpnMapRenamed newName pm)
          | none => .map (cpnMap pm)
        | _ => .map (cpnMap pm)
      | w => convertParamNamesInPath w
    .cons p' (cpnParams rest)

/-- `cpnMap` of a mapping whose first `name` binding has been overwritten
with the string `newName`. -/
def cpnMapRenamed (newName : String) : YMap → YMap
  | .nil => .nil
  | .cons k v rest =>
    if k = "name" then .cons k (.str newName) (cpnMap rest)
    else
      let v' :=
        if k = "parameters" then
          match v with
          | .arr l => .arr (cpnParams l)
          | w => convertParamNamesInPath w
        else convertParamNamesInPath v
      .cons k v' (cpnMapRenamed newName rest)

end

/-! ## `find_schema_refs` / `find_param_refs` (fix_merged_schema.py lines 75-115) -/

mutual

/-- Collect the definition names referenced via `$ref` pointers that start
with `pre` (`'#/components/schemas/'` or `'#/components/parameters/'`),
in traversal order; the name is the value with every occurrence of the
pointer head removed, as in the source's `value.replace(pre, '')`. -/
def refsY (pre : String) : Yaml → List String
  | .map m => refsMap pre m
  | .arr l => refsArr pre l
  | _ => []

def refsMap (pre : String) : YMap → List String
  | .nil => []
  | .cons k v rest =>
    (if k = "$ref" then
      match v with
      | .str s => if strStarts pre s then [pyReplace s pre ""] else refsY pre (.str s)
      | w => refsY pre w
     else refsY pre v) ++ refsMap pre rest

def refsArr (pre : String) : YArr → List String
  | .nil => []
  | .cons v rest => refsY pre v ++ refsArr pre rest

end

/-! ## `fix_null_enums` (fix_merged_schema.py lines 50-65) -/

/-- Python `None in l` on an `enum` list. -/
def containsNullA : YArr → Bool
  | .nil => false
  | .cons v rest => v = Yaml.null || containsNullA rest

/-- Python `[v for v in l if v is not None]`. -/
def filterNullA : YArr → YArr
  | .nil => .nil
  | .cons v rest => if v = Yaml.null then filterNullA rest else .cons v (filterNullA rest)

/-- Does the enum repair fire on this mapping: an `enum` binding whose value
is a sequence containing null? -/
def enumFires (m : YMap) : Bool :=
  match m.find? "enum" with
  | some (.arr l) => containsNullA l
  | _ => false

mutual

/-- `fix_null_enums`: on every mapping, drop null from a null-containing
`enum` sequence and, when no `nullable` binding exists, append
`nullable: true`; then recurse into every (updated) value. -/
def fixNE : Yaml → Yaml
  | .map m =>
    .map (if enumFires m && !(m.hasKey "nullable")
          then (fixNEWalk true m).push "nullable" (.bool true)
          else fixNEWalk true m)
  | .arr l => .arr (fixNEArr l)
  | y => y

/-- Entry-wise walk of a mapping.  The flag tracks whether the first `enum`
binding (the one the source's in-place update addresses) is still ahead.
The source filters null out of the `enum` sequence and then recurses into
the filtered sequence; since the recursion sends null to null and nothing
else to null, this equals recursing first and filtering after, which is the
structurally terminating order used here. -/
def fixNEWalk : Bool → YMap → YMap
  | _, .nil => .nil
  | looking, .cons k v rest =>
    if looking = true ∧ k = "enum" then
      match v with
      | .arr l =>
        if containsNullA l then .cons k (.arr (filterNullA (fixNEArr l))) (fixNEWalk false rest)
        else .cons k (.arr (fixNEArr l)) (fixNEWalk false rest)
      | w => .cons k (fixNE w) (fixNEWalk false rest)
    else .cons k (fixNE v) (fixNEWalk looking rest)

def fixNEArr : YArr → YArr
  | .nil => .nil
  | .cons v rest => .cons (fixNE v) (fixNEArr rest)

end

/-- The enum/nullable repair on a document root (`fix_null_enums(schema)`). -/
def fixEnums (d : YMap) : YMap :=
  if enumFires d && !(d.hasKey "nullable")
  then (fixNEWalk true d).push "nullable" (.bool true)
  else fixNEWalk true d

/-! ## The merge engine (`merge_schemas.py main`, lines 109-193, minus I/O) -/

/-- `get_paths_from_schema(official)` (lines 103-107): the path keys when
`paths` is present (raising when it is not a mapping), the empty set
otherwise. -/
def getPathsKeysE (official : YMap) : Except Unit (List String) :=
  match official.find? "paths" with
  | some (.map pm) => .ok pm.keys
  | some _ => .error ()
  | none => .ok []

/-- `comprehensive['paths']` with its `.items()` iteration: raises when
absent or not a mapping. -/
def compPathsE (comprehensive : YMap) : Except Unit YMap :=
  match comprehensive.find? "paths" with
  | some (.map pm) => .ok pm
  | some _ => .error ()
  | none => .error ()

/-- The conversion applied to a staged path object (lines 135-136). -/
def convertPathItem (item : Yaml) : Yaml := convertParamRefs (convertParamNamesInPath item)

/-- The `missing_paths` accumulation loop (lines 128-137): normalize each
source path; skip it when the normalized key is already an official path
key; otherwise store the converted path object under the normalized key
(a later colliding source entry overwrites an earlier one, dict-style). -/
def stageGo (offKeys : List String) (acc : YMap) : YMap → YMap
  | .nil => acc
  | .cons p item rest =>
    let np := normalizePath p
    if np ∈ offKeys then stageGo offKeys acc rest
    else stageGo offKeys (acc.insert np (convertPathItem item)) rest

def stagePaths (offKeys : List String) (cp : YMap) : YMap := stageGo offKeys .nil cp

def insertAllPaths : YMap → YMap → YMap
  | pm, .nil => pm
  | pm, .cons k v rest => insertAllPaths (pm.insert k v) rest

/-- Lines 172-174: `official['paths'][path] = path_obj` for every staged
path; raises when something is staged but `official` has no `paths`
mapping. -/
def insertStagedE (official : YMap) (staged : YMap) : Except Unit YMap :=
  match staged with
  | .nil => .ok official
  | _ =>
    match official.find? "paths" with
    | some (.map pm) => .ok (official.update "paths" (.map (insertAllPaths pm staged)))
    | _ => .error ()

/-- The curated tag list of lines 178-189. -/
def curatedTags : List (String × String) :=
  [("admin", "Installation administration endpoints"),
   ("profile", "User profile management"),
   ("sessions", "Session management"),
   ("service-accounts", "Service account management for API access"),
   ("templates", "Template documents"),
   ("snapshots", "Document version snapshots"),
   ("proposals", "Document change proposals"),
   ("forms", "Grist forms"),
   ("timing", "Document timing and performance"),
   ("ai", "AI assistant features")]

def tagYaml (t : String × String) : Yaml :=
  .map (.cons "name" (.str t.1) (.cons "description" (.str t.2) .nil))

/-- `{tag['name'] for tag in official.get('tags', [])}`: collect the `name`
values; raises on a non-mapping tag entry, a tag without `name`, an
unhashable `name` value, or a non-sequence `tags` section (the source
raises on those, at this line or at the subsequent append). -/
def tagNamesE : YArr → Except Unit (List Yaml)
  | .nil => .ok []
  | .cons t rest =>
    match t with
    | .map tm =>
      match tm.find? "name" with
      | some (.map _) => .error ()
      | some (.arr _) => .error ()
      | some v => do
        let r ← tagNamesE rest
        .ok (v :: r)
      | none => .error ()
    | _ => .error ()

/-- Lines 177-193: append every curated tag whose name is not already
present; `setdefault('tags', [])` creates the section at the end of the
document when it is absent. -/
def tagsStepE (official : YMap) : Except Unit YMap :=
  match official.find? "tags" with
  | none =>
    .ok (official.push "tags" (.arr (YArr.ofList (curatedTags.map tagYaml))))
  | some (.arr ts) => do
    let names ← tagNamesE ts
    let newOnes := curatedTags.filter (fun t => !(names.contains (.str t.1)))
    if newOnes.isEmpty then .ok official
    else .ok (official.update "tags" (.arr (ts.appendList (newOnes.map tagYaml))))
  | some _ => .error ()

/-- The merge engine: `merge(official, comprehensive)` as performed by
`main` of merge_schemas.py (file I/O and progress reporting excluded). -/
def mergeE (official comprehensive : YMap) : Except Unit YMap := do
  let offKeys ← getPathsKeysE official
  let cp ← compPathsE comprehensive
  let official' ← insertStagedE official (stagePaths offKeys cp)
  tagsStepE official'

/-! ## Missing-component copy (fix_merged_schema.py, fixes 7 and 8) -/

/-- Lookup of `d['components'][cat][name]` through well-shaped mappings
(`none` on any shape mismatch). -/
def catLookup (d : YMap) (cat name : String) : Option Yaml :=
  match d.find? "components" with
  | some (.map cm) =>
    match cm.find? cat with
    | some (.map catm) => catm.find? name
    | _ => none
  | _ => none

/-- Python `name in d.get('components', {}).get(cat, {})`, with Python's
per-type membership semantics (key membership on mappings, element
membership on sequences, substring on strings, raising on other scalars
and on a non-mapping `components`). -/
def memberInCompE (d : YMap) (cat name : String) : Except Unit Bool :=
  match d.find? "components" with
  | none => .ok false
  | some (.map cm) =>
    match cm.find? cat with
    | none => .ok false
    | some (.map catm) => .ok (catm.hasKey name)
    | some (.arr l) => .ok (l.contains (.str name))
    | some (.str s) => .ok (strOccurs name s)
    | some _ => .error ()
  | some _ => .error ()

/-- `comprehensive['components'][cat][name]` by direct indexing: raises on
any non-mapping step or a missing name. -/
def fetchDefE (s : YMap) (cat name : String) : Except Unit Yaml :=
  match s.find? "components" with
  | some (.map cm) =>
    match cm.find? cat with
    | some (.map catm) =>
      match catm.find? name with
      | some v => .ok v
      | none => .error ()
    | some _ => .error ()
    | none => .error ()
  | _ => .error ()

/-- `schema.setdefault('components', {}).setdefault(cat, {})[name] = v`:
create the missing sections at the end of their parent, overwrite-or-append
the name; raises when an existing section is not a mapping. -/
def copyIntoE (d : YMap) (cat name : String) (v : Yaml) : Except Unit YMap :=
  match d.find? "components" with
  | none => .ok (d.push "components" (.map (.cons cat (.map (.cons name v .nil)) .nil)))
  | some (.map cm) =>
    match cm.find? cat with
    | none => .ok (d.update "components" (.map (cm.push cat (.map (.cons name v .nil)))))
    | some (.map catm) => .ok (d.update "components" (.map (cm.update cat (.map (catm.insert name v)))))
    | some _ => .error ()
  | some _ => .error ()

/-- One name of the copy loop: skip when present in the target category,
copy from the source when present there, silently skip otherwise. -/
def copyStepE (source : YMap) (cat : String) (d : YMap) (name : String) : Except Unit YMap := do
  let mem ← memberInCompE d cat name
  if mem then .ok d
  else do
    let smem ← memberInCompE source cat name
    if smem then do
      let v ← fetchDefE source cat name
      copyIntoE d cat name v
    else .ok d

/-- Fix 7 / fix 8: collect the referenced names of `schema.get('paths', {})`
and copy each missing one from the source document.  The source iterates
`set(refs)` in an unspecified hash order; the first-occurrence `dedup`
order is used here (the copies of distinct names are independent, so every
per-name result below is order-independent). -/
def fixCopyE (pre cat : String) (d source : YMap) : Except Unit YMap :=
  let pathsV := match d.find? "paths" with
    | some v => v
    | none => .map .nil
  ((refsY pre pathsV).dedup).foldlM (copyStepE source cat) d

def schemasRefHead : String := "#/components/schemas/"
def paramsRefHead : String := "#/components/parameters/"

/-- The merge as specified (§4.5 including its step 4): the merge engine of
merge_schemas.py followed by the missing-schema and missing-parameter
copies of fix_merged_schema.py. -/
def pipelineE (official comprehensive : YMap) : Except Unit YMap := do
  let m ← mergeE official comprehensive
  let m1 ← fixCopyE schemasRefHead "schemas" m comprehensive
  fixCopyE paramsRefHead "parameters" m1 comprehensive

/-! ## The five fixups (fix_merged_schema.py, fixes 1-6) -/

def serverUrl : String := "https://{subdomain}.getgrist.com/api"
def serverDesc : String := "Grist API server"

/-- Fix 1: when `servers` is a non-empty sequence whose head is a mapping,
overwrite the head's `url` and `description` (the source raises on other
non-empty shapes; those are outside the well-shaped documents the fixup
theorems quantify over, and are left unchanged here). -/
def fixServer (d : YMap) : YMap :=
  match d.find? "servers" with
  | some (.arr (.cons s0 rest)) =>
    match s0 with
    | .map sm =>
      d.update "servers"
        (.arr (.cons (.map ((sm.insert "url" (.str serverUrl)).insert "description" (.str serverDesc))) rest))
    | _ => d
  | _ => d

def statesRemoveKey : String := "/docs/{docId}/states/remove"

def responsesFixValue : Yaml :=
  .map (.cons "200" (.map (.cons "description" (.str "Success") .nil)) .nil)

/-- Fix 2: overwrite the `responses` of the `post` operation of the fixed
path, when that operation exists. -/
def fixResponses (d : YMap) : YMap :=
  match d.find? "paths" with
  | some (.map pm) =>
    match pm.find? statesRemoveKey with
    | some (.map em) =>
      match em.find? "post" with
      | some (.map om) =>
        d.update "paths"
          (.map (pm.update statesRemoveKey
            (.map (em.update "post" (.map (om.insert "responses" responsesFixValue))))))
      | _ => d
    | _ => d
  | _ => d

/-- Keep a tag iff `tag.get('name') != 'scim'` (the source raises on a
non-mapping tag entry). -/
def scimTagKeep (t : Yaml) : Bool :=
  match t with
  | .map tm => !(decide (tm.find? "name" = some (.str "scim")))
  | _ => true

/-- Fixes 3 and 4: delete every path whose key starts with `/scim/` and
drop the tag named `scim`. -/
def fixScim (d : YMap) : YMap :=
  let d1 :=
    match d.find? "paths" with
    | some (.map pm) => d.update "paths" (.map (pm.filterKeys (fun k => !(strStarts "/scim/" k))))
    | _ => d
  match d1.find? "tags" with
  | some (.arr ts) => d1.update "tags" (.arr (ts.filter scimTagKeep))
  | _ => d1

def opIdValue : String := "createOrImportDoc"

/-- Fix 6: overwrite the `operationId` of the `post` operation of `/docs`,
when that operation exists. -/
def fixOpId (d : YMap) : YMap :=
  match d.find? "paths" with
  | some (.map pm) =>
    match pm.find? "/docs" with
    | some (.map em) =>
      match em.find? "post" with
      | some (.map om) =>
        d.update "paths"
          (.map (pm.update "/docs"
            (.map (em.update "post" (.map (om.insert "operationId" (.str opIdValue)))))))
      | _ => d
    | _ => d
  | _ => d

/-! ## A spec-side reference rewriter (for comparison only) -/

/-- Modelled from the spec: the §4.2 rename table restricted to reference
rewriting (§4.3) for the `parameters` category, as claimed in §4.5 step 2:
a pointer `#/components/parameters/<name>` whose target name matches a
table entry has exactly that name segment replaced, the rest of the pointer
untouched. -/
def specRefTable : List (String × String) :=
  [("oid", "orgId"), ("wid", "workspaceId"), ("attId", "attachmentId"),
   ("uid", "userId"), ("said", "serviceAccountId"), ("vsId", "formId")]

/-- Modelled from the spec: rewrite one parameters-category reference
pointer by the §4.2 table. -/
def specRewriteRefString (s : String) : String :=
  if strStarts paramsRefHead s then
    match tblLookup specRefTable ⟨s.data.drop paramsRefHead.data.length⟩ with
    | some newName => paramsRefHead ++ newName
    | none => s
  else s

/-! ## Lemmas about `leadsB`, `occursB` and `replaceL` -/

theorem leadsB_nil_left (s : List Char) : leadsB [] s = true := by
  cases s <;> rfl

theorem occursB_nil_left (s : List Char) : occursB [] s = true := by
  induction s with
  | nil => rfl
  | cons c s ih => simp [occursB, ih, leadsB_nil_left]

theorem leadsB_nil_right {t : List Char} (h : leadsB t [] = true) : t = [] := by
  cases t with
  | nil => rfl
  | cons c t => simp [leadsB] at h

theorem leadsB_append_self (a b : List Char) : leadsB a (a ++ b) = true := by
  induction a with
  | nil => exact leadsB_nil_left b
  | cons c a ih => simp [leadsB, ih]

theorem leadsB_trans {a b c : List Char} (h1 : leadsB a b = true) (h2 : leadsB b c = true) :
    leadsB a c = true := by
  induction a generalizing b c with
  | nil => exact leadsB_nil_left c
  | cons x a ih =>
    cases b with
    | nil => simp [leadsB] at h1
    | cons y b =>
      cases c with
      | nil => simp [leadsB] at h2
      | cons z c =>
        simp only [leadsB, Bool.and_eq_true, decide_eq_true_eq] at h1 h2 ⊢
        exact ⟨h1.1.trans h2.1, ih h1.2 h2.2⟩

theorem leadsB_compare {t p s : List Char} (ht : leadsB t s = true) (hp : leadsB p s = true) :
    leadsB t p = true ∨ leadsB p t = true := by
  induction t generalizing p s with
  | nil => exact Or.inl (leadsB_nil_left p)
  | cons c t ih =>
    cases p with
    | nil => exact Or.inr (leadsB_nil_left _)
    | cons d p =>
      cases s with
      | nil => simp [leadsB] at ht
      | cons e s =>
        simp only [leadsB, Bool.and_eq_true, decide_eq_true_eq] at ht hp ⊢
        rcases ih ht.2 hp.2 with h | h
        · exact Or.inl ⟨ht.1.trans hp.1.symm, h⟩
        · exact Or.inr ⟨hp.1.trans ht.1.symm, h⟩

theorem leadsB_drop {pat s : List Char} (h : leadsB pat s = true) :
    s = pat ++ s.drop pat.length := by
  induction pat generalizing s with
  | nil => simp
  | cons c pat ih =>
    cases s with
    | nil => simp [leadsB] at h
    | cons d s =>
      simp only [leadsB, Bool.and_eq_true, decide_eq_true_eq] at h
      simpa [h.1] using congrArg (d :: ·) (ih h.2)

theorem occursB_of_leadsB {t s : List Char} (h : leadsB t s = true) : occursB t s = true := by
  cases s with
  | nil => exact h
  | cons c s => simp [occursB, h]

theorem occursB_cons {t s : List Char} (c : Char) (h : occursB t s = true) :
    occursB t (c :: s) = true := by
  simp [occursB, h]

theorem occursB_append_right {t b : List Char} (a : List Char) (h : occursB t b = true) :
    occursB t (a ++ b) = true := by
  induction a with
  | nil => simpa using h
  | cons c a ih => simpa using occursB_cons c ih

theorem leadsB_append_cases {t x y : List Char} (h : leadsB t (x ++ y) = true) :
    leadsB t x = true ∨ leadsB x t = true := by
  induction x generalizing t with
  | nil => exact Or.inr (leadsB_nil_left t)
  | cons c x ih =>
    cases t with
    | nil => exact Or.inl (leadsB_nil_left _)
    | cons d t =>
      simp only [List.cons_append, leadsB, Bool.and_eq_true, decide_eq_true_eq] at h ⊢
      rcases ih h.2 with h' | h'
      · exact Or.inl ⟨h.1, h'⟩
      · exact Or.inr ⟨h.1.symm, h'⟩

theorem occursB_append_split {t a b : List Char} (h : occursB t (a ++ b) = true) :
    occursB t b = true ∨ ∃ k, k < a.length ∧ leadsB t (a.drop k ++ b) = true := by
  induction a with
  | nil => exact Or.inl (by simpa using h)
  | cons c a ih =>
    rw [List.cons_append] at h
    rcases Bool.or_eq_true _ _ |>.mp (by simpa [occursB] using h) with h' | h'
    · exact Or.inr ⟨0, by simp, by simpa using h'⟩
    · rcases ih h' with h'' | ⟨k, hk, hl⟩
      · exact Or.inl h''
      · exact Or.inr ⟨k + 1, by simpa using Nat.succ_lt_succ hk, by simpa using hl⟩

theorem occursB_mono {t1 t2 s : List Char} (h12 : leadsB t1 t2 = true)
    (h : occursB t2 s = true) : occursB t1 s = true := by
  induction s with
  | nil => exact occursB_of_leadsB (leadsB_trans h12 h)
  | cons c s ih =>
    rcases Bool.or_eq_true _ _ |>.mp (by simpa [occursB] using h) with h' | h'
    · exact occursB_of_leadsB (leadsB_trans h12 h')
    · exact occursB_cons c (ih h')

theorem replaceGo_fuel {pat rep : List Char} (hp : pat ≠ []) :
    ∀ f₁ f₂ s, s.length ≤ f₁ → s.length ≤ f₂ →
      replaceGo pat rep f₁ s = replaceGo pat rep f₂ s := by
  intro f₁
  induction f₁ with
  | zero =>
    intro f₂ s h1 _
    have : s = [] := List.eq_nil_of_length_eq_zero (Nat.le_zero.mp h1)
    subst this
    cases f₂ <;> rfl
  | succ f₁ ih =>
    intro f₂ s h1 h2
    cases s with
    | nil => cases f₂ <;> rfl
    | cons c s' =>
      cases f₂ with
      | zero => simp at h2
      | succ f₂ =>
        simp only [replaceGo]
        by_cases hfire : leadsB pat (c :: s') = true
        · simp only [hfire, if_true]
          have hplen : 1 ≤ pat.length := by
            cases pat with
            | nil => exact absurd rfl hp
            | cons _ _ => simp
          have hdl : ((c :: s').drop pat.length).length ≤ f₁ := by
            simp only [List.length_drop]
            omega
          have hdl2 : ((c :: s').drop pat.length).length ≤ f₂ := by
            simp only [List.length_drop]
            omega
          rw [ih _ _ hdl hdl2]
        · simp only [hfire, if_false, Bool.false_eq_true]
          have hl1 : s'.length ≤ f₁ := by simp only [List.length_cons] at h1; omega
          have hl2 : s'.length ≤ f₂ := by simp only [List.length_cons] at h2; omega
          rw [ih _ _ hl1 hl2]

theorem replaceL_fire {pat rep s : List Char} (hp : pat ≠ []) (h : leadsB pat s = true) :
    replaceL pat rep s = rep ++ replaceL pat rep (s.drop pat.length) := by
  cases s with
  | nil =>
    cases pat with
    | nil => exact absurd rfl hp
    | cons _ _ => simp [leadsB] at h
  | cons c s' =>
    have hplen : 1 ≤ pat.length := by
      cases pat with
      | nil => exact absurd rfl hp
      | cons _ _ => simp
    simp only [replaceL, List.length_cons, replaceGo, h, if_true]
    congr 1
    exact replaceGo_fuel hp _ _ _ (by simp [List.length_drop]; omega) (by simp)

theorem replaceL_cons_nofire {pat rep : List Char} {c : Char} {s' : List Char}
    (h : leadsB pat (c :: s') = false) :
    replaceL pat rep (c :: s') = c :: replaceL pat rep s' := by
  simp only [replaceL, List.length_cons, replaceGo, h]
  simp

theorem replaceL_of_not_occurs {pat rep s : List Char} (h : occursB pat s = false) :
    replaceL pat rep s = s := by
  induction s with
  | nil => rfl
  | cons c s' ih =>
    simp only [occursB, Bool.or_eq_false_iff] at h
    rw [replaceL_cons_nofire h.1, ih h.2]

/-- `a` and `b` cannot overlap: no nonempty suffix of `a` is an initial
segment of `b`, nor is `b` an initial segment of a nonempty suffix of `a`. -/
def overlapFree (a b : List Char) : Bool :=
  (List.range a.length).all fun k => !(leadsB b (a.drop k)) && !(leadsB (a.drop k) b)

theorem overlapFree_spec {a b : List Char} (h : overlapFree a b = true) {k : Nat}
    (hk : k < a.length) : leadsB b (a.drop k) = false ∧ leadsB (a.drop k) b = false := by
  have := (List.all_eq_true.mp h) k (List.mem_range.mpr hk)
  simp only [Bool.and_eq_true, Bool.not_eq_true'] at this
  exact this

theorem overlapFree_tail {c : Char} {a b : List Char} (h : overlapFree (c :: a) b = true) :
    overlapFree a b = true := by
  refine List.all_eq_true.mpr fun k hk => ?_
  have := (List.all_eq_true.mp h) (k + 1) (by simpa using Nat.succ_lt_succ (List.mem_range.mp hk))
  simpa using this

theorem leadsB_replaceL {pat rep t : List Char} (h1 : overlapFree t pat = true) :
    ∀ s, leadsB t s = true → leadsB t (replaceL pat rep s) = true := by
  induction t with
  | nil => intro s _; exact leadsB_nil_left _
  | cons c t' ih =>
    intro s hls
    cases s with
    | nil => simp [leadsB] at hls
    | cons d s₂ =>
      have hfire : leadsB pat (d :: s₂) = false := by
        by_contra hne
        have hf : leadsB pat (d :: s₂) = true := by
          cases hq : leadsB pat (d :: s₂) with
          | false => exact absurd hq hne
          | true => rfl
        rcases leadsB_compare hls hf with h' | h'
        · exact absurd h' (by simpa using (@overlapFree_spec _ _ h1 0 (by simp)).2)
        · exact absurd h' (by simpa using (@overlapFree_spec _ _ h1 0 (by simp)).1)
      rw [replaceL_cons_nofire hfire]
      simp only [leadsB, Bool.and_eq_true, decide_eq_true_eq] at hls ⊢
      exact ⟨hls.1, ih (overlapFree_tail h1) s₂ hls.2⟩

theorem occursB_replaceL {pat rep t : List Char} (hp : pat ≠ [])
    (h2 : overlapFree pat t = true) (h1 : overlapFree t pat = true) :
    ∀ s, occursB t s = true → occursB t (replaceL pat rep s) = true := by
  cases ht : t with
  | nil => intro s _; exact occursB_nil_left _
  | cons c0 t0 =>
    rw [← ht]
    have htne : t ≠ [] := by rw [ht]; simp
    suffices H : ∀ n s, s.length ≤ n → occursB t s = true → occursB t (replaceL pat rep s) = true by
      intro s; exact H s.length s (Nat.le_refl _)
    intro n
    induction n with
    | zero =>
      intro s hlen hocc
      have : s = [] := List.eq_nil_of_length_eq_zero (Nat.le_zero.mp hlen)
      subst this
      have : leadsB t [] = true := hocc
      exact absurd (leadsB_nil_right this) htne
    | succ n ihn =>
      intro s hlen hocc
      by_cases hfire : leadsB pat s = true
      · have hs : s = pat ++ s.drop pat.length := leadsB_drop hfire
        have hplen : 1 ≤ pat.length := by
          cases pat with
          | nil => exact absurd rfl hp
          | cons _ _ => simp
        rw [replaceL_fire hp hfire]
        rcases occursB_append_split (by rw [← hs]; exact hocc) with h' | ⟨k, hk, hl⟩
        · have hrec : occursB t (replaceL pat rep (s.drop pat.length)) = true := by
            refine ihn _ ?_ h'
            simp only [List.length_drop]
            omega
          exact occursB_append_right rep hrec
        · rcases leadsB_append_cases hl with h' | h'
          · exact absurd h' (by simp [(overlapFree_spec h2 hk).1])
          · exact absurd h' (by simp [(overlapFree_spec h2 hk).2])
      · cases s with
        | nil =>
          have : leadsB t [] = true := hocc
          exact absurd (leadsB_nil_right this) htne
        | cons c s' =>
          rcases Bool.or_eq_true _ _ |>.mp (by simpa [occursB] using hocc) with h' | h'
          · exact occursB_of_leadsB (leadsB_replaceL h1 _ h')
          · have hrec := ihn s' (by simp only [List.length_cons] at hlen; omega) h'
            rw [replaceL_cons_nofire (by simpa using hfire)]
            exact occursB_cons c hrec

theorem occursB_rep_replaceL {pat rep : List Char} (hp : pat ≠ []) :
    ∀ s, occursB pat s = true → occursB rep (replaceL pat rep s) = true := by
  suffices H : ∀ n s, s.length ≤ n → occursB pat s = true →
      occursB rep (replaceL pat rep s) = true by
    intro s; exact H s.length s (Nat.le_refl _)
  intro n
  induction n with
  | zero =>
    intro s hlen hocc
    have : s = [] := List.eq_nil_of_length_eq_zero (Nat.le_zero.mp hlen)
    subst this
    exact absurd (leadsB_nil_right hocc) hp
  | succ n ihn =>
    intro s hlen hocc
    by_cases hfire : leadsB pat s = true
    · rw [replaceL_fire hp hfire]
      exact occursB_of_leadsB (leadsB_append_self rep _)
    · cases s with
      | nil => exact absurd (leadsB_nil_right hocc) hp
      | cons c s' =>
        rcases Bool.or_eq_true _ _ |>.mp (by simpa [occursB] using hocc) with h' | h'
        · exact absurd h' (by simpa using hfire)
        · have hrec := ihn s' (by simp only [List.length_cons] at hlen; omega) h'
          rw [replaceL_cons_nofire (by simpa using hfire)]
          exact occursB_cons c hrec

/-! ## Claim C9: prefix stripping is plain substring replacement -/

/-- C9: `normalize_path` strips the prefix by plain substring replacement,
not by path-segment matching: `/apikeys` (whose segment merely begins with
the letters `api`) becomes `/keys`; every occurrence of `/api/` is
replaced, not only a leading segment; and a remaining `/api` occurrence is
then replaced as well. -/
theorem C9_normalize_substring_replacement :
    normalizePath "/apikeys" = "/keys" ∧
    normalizePath "/x/api/y/api/z" = "/x/y/z" ∧
    normalizePath "/api/api" = "/" := by
  refine ⟨by decide, by decide, by decide⟩

/-! ## Claim C10: parameter renaming applies to every nested `parameters` list -/

/-- A mapping nested under `n` levels of `x:` keys. -/
def nestMaps : Nat → Yaml → Yaml
  | 0, y => y
  | n + 1, y => .map (.cons "x" (nestMaps n y) .nil)

def uidQueryParam : Yaml :=
  .map (.cons "name" (.str "uid") (.cons "in" (.str "query") .nil))

def userIdQueryParam : Yaml :=
  .map (.cons "name" (.str "userId") (.cons "in" (.str "query") .nil))

/-- C10: `convert_param_names_in_path` renames table-listed parameter names
in every mapping entry keyed `parameters` at any depth, including
operation-level and query parameters: a `parameters` list holding a query
parameter named `uid` has it renamed to `userId` at every nesting depth,
and in particular in an operation-level position of a PathItem. -/
theorem C10_param_rename_any_depth :
    (∀ n : Nat,
      convertParamNamesInPath
        (nestMaps n (.map (.cons "parameters" (.arr (.cons uidQueryParam .nil)) .nil))) =
      nestMaps n (.map (.cons "parameters" (.arr (.cons userIdQueryParam .nil)) .nil))) ∧
    convertParamNamesInPath
      (.map (.cons "get" (.map (.cons "parameters" (.arr (.cons uidQueryParam .nil)) .nil)) .nil)) =
    .map (.cons "get" (.map (.cons "parameters" (.arr (.cons userIdQueryParam .nil)) .nil)) .nil) := by
  constructor
  · intro n
    induction n with
    | zero => decide
    | succ n ih =>
      simp only [nestMaps, convertParamNamesInPath, cpnMap]
      rw [if_neg (by decide)]
      simp only [ih]
  · decide

/-! ## String-level corollaries -/

theorem strOccurs_replace_pres {pat rep t : String} (hp : pat.data ≠ [])
    (h2 : overlapFree pat.data t.data = true) (h1 : overlapFree t.data pat.data = true)
    {s : String} (h : strOccurs t s = true) : strOccurs t (pyReplace s pat rep) = true :=
  occursB_replaceL hp h2 h1 _ h

theorem strOccurs_rep_replace {pat rep : String} (hp : pat.data ≠ []) {s : String}
    (h : strOccurs pat s = true) : strOccurs rep (pyReplace s pat rep) = true :=
  occursB_rep_replaceL hp _ h

theorem pyReplace_id {pat rep s : String} (h : strOccurs pat s = false) :
    pyReplace s pat rep = s := by
  show String.mk (replaceL pat.data rep.data s.data) = s
  rw [replaceL_of_not_occurs h]

theorem strOccurs_mono {t1 t2 s : String} (h12 : leadsB t1.data t2.data = true)
    (h : strOccurs t2 s = true) : strOccurs t1 s = true :=
  occursB_mono h12 h

theorem normalizePath_eq (p : String) :
    normalizePath p =
      pyReplace (pyReplace (pyReplace (pyReplace (pyReplace (pyReplace (pyReplace
        (pyReplace p "/api/" "/") "/api" "/")
        "{oid}" "{orgId}") "{wid}" "{workspaceId}") "{attId}" "{attachmentId}")
        "{uid}" "{userId}") "{said}" "{serviceAccountId}") "{vsId}" "{formId}" := rfl

/-! ## Claim C5: `{oid}` normalization and idempotence -/

/-- The source-side fragments whose absence from a normalized path makes a
second normalization a no-op. -/
def sourceFragments : List String :=
  ["/api", "{oid}", "{wid}", "{attId}", "{uid}", "{said}", "{vsId}"]

def noResidue (s : String) : Bool := sourceFragments.all fun t => !(strOccurs t s)

/-- C5 counterexample: `/apiapi/{oid}` contains the token `{oid}`, but
normalizing its normalization (`/api/{orgId}`) changes it again (to
`/{orgId}`): re-normalizing is not a no-op for every `{oid}` path. -/
theorem C5_counterexample :
    strOccurs "{oid}" "/apiapi/{oid}" = true ∧
    normalizePath "/apiapi/{oid}" = "/api/{orgId}" ∧
    normalizePath (normalizePath "/apiapi/{oid}") ≠ normalizePath "/apiapi/{oid}" :=
  ⟨by decide, by decide, by decide⟩

/-- C5 as amended: for every path containing the token `{oid}`, the
normalized path contains the token `{orgId}`; a parameter entry named `oid`
is renamed to `orgId` by the PathItem conversion; and re-normalizing the
result is a no-op provided the result retains no occurrence of `/api` or of
a source-side token of the rename table. -/
theorem C5_amended (P : String) (h : strOccurs "{oid}" P = true) :
    strOccurs "{orgId}" (normalizePath P) = true ∧
    (noResidue (normalizePath P) = true →
      normalizePath (normalizePath P) = normalizePath P) ∧
    (∀ (rest : YMap) (tl : YArr),
      convertParamNamesInPath
        (.map (.cons "parameters"
          (.arr (.cons (.map (.cons "name" (.str "oid") rest)) tl)) .nil)) =
      .map (.cons "parameters"
        (.arr (.cons (.map (.cons "name" (.str "orgId") (cpnMap rest))) (cpnParams tl))) .nil)) := by
  refine ⟨?_, ?_, ?_⟩
  · rw [normalizePath_eq]
    have s1 : strOccurs "{oid}" (pyReplace P "/api/" "/") = true :=
      strOccurs_replace_pres (by decide) (by decide) (by decide) h
    have s2 : strOccurs "{oid}" (pyReplace (pyReplace P "/api/" "/") "/api" "/") = true :=
      strOccurs_replace_pres (by decide) (by decide) (by decide) s1
    have s3 := @strOccurs_rep_replace "{oid}" "{orgId}" (by decide) _ s2
    have s4 := @strOccurs_replace_pres "{wid}" "{workspaceId}" "{orgId}"
      (by decide) (by decide) (by decide) _ s3
    have s5 := @strOccurs_replace_pres "{attId}" "{attachmentId}" "{orgId}"
      (by decide) (by decide) (by decide) _ s4
    have s6 := @strOccurs_replace_pres "{uid}" "{userId}" "{orgId}"
      (by decide) (by decide) (by decide) _ s5
    have s7 := @strOccurs_replace_pres "{said}" "{serviceAccountId}" "{orgId}"
      (by decide) (by decide) (by decide) _ s6
    exact @strOccurs_replace_pres "{vsId}" "{formId}" "{orgId}"
      (by decide) (by decide) (by decide) _ s7
  · intro hres
    simp only [noResidue, sourceFragments, List.all_cons, List.all_nil, Bool.and_eq_true,
      Bool.not_eq_true', Bool.and_true] at hres
    obtain ⟨hapi, hoid, hwid, hatt, huid, hsaid, hvs⟩ := hres
    have hapi5 : strOccurs "/api/" (normalizePath P) = false := by
      cases hc : strOccurs "/api/" (normalizePath P) with
      | false => rfl
      | true => exact absurd (@strOccurs_mono "/api" "/api/" _ (by decide) hc) (by simp [hapi])
    conv_lhs => rw [normalizePath_eq]
    rw [pyReplace_id hapi5, pyReplace_id hapi, pyReplace_id hoid, pyReplace_id hwid,
      pyReplace_id hatt, pyReplace_id huid, pyReplace_id hsaid, pyReplace_id hvs]
  · intro rest tl
    rfl

/-- Witness for C5 as amended, at the concrete path
`/api/orgs/{oid}/workspaces` of the spec's own scenario. -/
theorem C5_amended_witness :
    strOccurs "{oid}" "/api/orgs/{oid}/workspaces" = true ∧
    strOccurs "{orgId}" (normalizePath "/api/orgs/{oid}/workspaces") = true ∧
    normalizePath (normalizePath "/api/orgs/{oid}/workspaces") =
      normalizePath "/api/orgs/{oid}/workspaces" :=
  ⟨by decide, (C5_amended "/api/orgs/{oid}/workspaces" (by decide)).1,
    (C5_amended "/api/orgs/{oid}/workspaces" (by decide)).2.1 (by decide)⟩

/-! ## Claim C4: which rename table rewrites staged reference pointers -/

def C4target : YMap := .cons "paths" (.map .nil) .nil

def C4source : YMap :=
  .cons "paths"
    (.map (.cons "/p" (.map (.cons "$ref" (.str "#/components/parameters/oid") .nil)) .nil)) .nil

/-- C4 counterexample: a staged path carrying the pointer
`#/components/parameters/oid` is inserted with that pointer unchanged,
although the §4.2 table (`oid → orgId`) claimed by the spec would rewrite
it; conversely the code rewrites `#/components/parameters/OrgId` (not a
§4.2 table entry) to `orgIdPathParam`.  The reference rewrite therefore
does not use the same rename table as the path normalizer. -/
theorem C4_counterexample :
    (mergeE C4target C4source).toOption.map (fun r => r.find? "paths") =
      some (some (.map
        (.cons "/p" (.map (.cons "$ref" (.str "#/components/parameters/oid") .nil)) .nil))) ∧
    specRewriteRefString "#/components/parameters/oid" = "#/components/parameters/orgId" ∧
    "#/components/parameters/orgId" ≠ "#/components/parameters/oid" ∧
    rewriteRefString "#/components/parameters/OrgId" =
      "#/components/parameters/orgIdPathParam" ∧
    specRewriteRefString "#/components/parameters/OrgId" = "#/components/parameters/OrgId" :=
  ⟨by decide, by decide, by decide, by decide, by decide⟩

/-- C4 as amended: reference pointers of staged paths are rewritten by the
fixed table `OrgId → orgIdPathParam`, `WorkspaceId → workspaceIdPathParam`,
`DocId → docIdPathParam`, `TableId → tableIdPathParam`,
`AttachmentId → attachmentIdPathParam`, `UserId → userIdPathParam` (not the
§4.2 table), applied to every string `$ref` value by replacing each
occurrence of the substring `parameters/<old>`; a pointer containing none
of those substrings is left untouched. -/
theorem C4_amended (s : String)
    (hs : (refParamTable.all fun kv => !(strOccurs ("parameters/" ++ kv.1) s)) = true) :
    rewriteRefString s = s ∧
    convertParamRefs (.map (.cons "$ref" (.str s) .nil)) =
      .map (.cons "$ref" (.str s) .nil) ∧
    (∀ (t : String) (rest : YMap),
      convertParamRefs (.map (.cons "$ref" (.str t) rest)) =
        .map (.cons "$ref" (.str (rewriteRefString t)) (convertParamRefsMap rest))) ∧
    rewriteRefString "#/components/parameters/OrgId" =
      "#/components/parameters/orgIdPathParam" ∧
    rewriteRefString "#/components/parameters/WorkspaceId" =
      "#/components/parameters/workspaceIdPathParam" ∧
    rewriteRefString "#/components/parameters/DocId" = "#/components/parameters/docIdPathParam" ∧
    rewriteRefString "#/components/parameters/TableId" =
      "#/components/parameters/tableIdPathParam" ∧
    rewriteRefString "#/components/parameters/AttachmentId" =
      "#/components/parameters/attachmentIdPathParam" ∧
    rewriteRefString "#/components/parameters/UserId" =
      "#/components/parameters/userIdPathParam" := by
  simp only [refParamTable, List.all_cons, List.all_nil, Bool.and_eq_true,
    Bool.not_eq_true', Bool.and_true] at hs
  obtain ⟨h1, h2, h3, h4, h5, h6⟩ := hs
  have h1' : strOccurs "parameters/OrgId" s = false := h1
  have h2' : strOccurs "parameters/WorkspaceId" s = false := h2
  have h3' : strOccurs "parameters/DocId" s = false := h3
  have h4' : strOccurs "parameters/TableId" s = false := h4
  have h5' : strOccurs "parameters/AttachmentId" s = false := h5
  have h6' : strOccurs "parameters/UserId" s = false := h6
  have hrw : rewriteRefString s = s := by
    simp [rewriteRefString, refParamTable, h1', h2', h3', h4', h5', h6']
  refine ⟨hrw, ?_, fun t rest => rfl, by decide, by decide, by decide, by decide, by decide,
    by decide⟩
  show Yaml.map (.cons "$ref" (.str (rewriteRefString s)) .nil) =
    .map (.cons "$ref" (.str s) .nil)
  rw [hrw]

/-- Witness for C4 as amended, at a pointer outside the rewrite table. -/
theorem C4_amended_witness :
    rewriteRefString "#/components/parameters/docListParam" =
      "#/components/parameters/docListParam" :=
  (C4_amended "#/components/parameters/docListParam" (by decide)).1

/-! ## Lemmas for the enum/nullable repair -/

theorem fixNE_null_iff : ∀ y : Yaml, fixNE y = .null ↔ y = .null
  | .str _ => by simp [fixNE]
  | .int _ => by simp [fixNE]
  | .bool _ => by simp [fixNE]
  | .null => by simp [fixNE]
  | .map _ => by simp [fixNE]
  | .arr _ => by simp [fixNE]

theorem containsNullA_filterNullA : ∀ l : YArr, containsNullA (filterNullA l) = false
  | .nil => rfl
  | .cons v rest => by
    by_cases hv : v = Yaml.null
    · simp [filterNullA, hv, containsNullA_filterNullA rest]
    · simp [filterNullA, hv, containsNullA, containsNullA_filterNullA rest]

theorem containsNullA_fixNEArr : ∀ l : YArr, containsNullA (fixNEArr l) = containsNullA l
  | .nil => rfl
  | .cons v rest => by
    simp [fixNEArr, containsNullA, containsNullA_fixNEArr rest, fixNE_null_iff v]

theorem fixNEArr_filterNullA : ∀ l : YArr, fixNEArr (filterNullA l) = filterNullA (fixNEArr l)
  | .nil => rfl
  | .cons v rest => by
    by_cases hv : v = Yaml.null
    · simp [filterNullA, fixNEArr, hv, fixNEArr_filterNullA rest, fixNE]
    · simp [filterNullA, fixNEArr, hv, (fixNE_null_iff v).not.mpr hv,
        fixNEArr_filterNullA rest]

theorem YMap.find?_push_of_some : ∀ (m : YMap) (k' : String) (w : Yaml) (k : String) (v : Yaml),
    m.find? k' = some w → (m.push k v).find? k' = some w
  | .nil, _, _, _, _, h => by simp [YMap.find?] at h
  | .cons k0 v0 rest, k', w, k, v, h => by
    by_cases hk : k0 = k'
    · simp only [YMap.find?, hk, if_true] at h
      simp [YMap.push, YMap.find?, hk, h]
    · simp only [YMap.find?, hk, if_false] at h
      simp [YMap.push, YMap.find?, hk, YMap.find?_push_of_some rest k' w k v h]

theorem YMap.find?_push_ne : ∀ (m : YMap) (k k' : String) (v : Yaml), k ≠ k' →
    (m.push k v).find? k' = m.find? k'
  | .nil, k, k', v, hk => by simp [YMap.push, YMap.find?, hk]
  | .cons k0 v0 rest, k, k', v, hk => by
    by_cases hk0 : k0 = k'
    · simp [YMap.push, YMap.find?, hk0]
    · simp [YMap.push, YMap.find?, hk0, YMap.find?_push_ne rest k k' v hk]

theorem YMap.find?_push_of_none : ∀ (m : YMap) (k : String) (v : Yaml),
    m.find? k = none → (m.push k v).find? k = some v
  | .nil, k, v, _ => by simp [YMap.push, YMap.find?]
  | .cons k0 v0 rest, k, v, h => by
    by_cases hk : k0 = k
    · simp [YMap.find?, hk] at h
    · simp only [YMap.find?, hk, if_false] at h
      simp [YMap.push, YMap.find?, hk, YMap.find?_push_of_none rest k v h]

theorem YMap.hasKey_push : ∀ (m : YMap) (k k' : String) (v : Yaml),
    (m.push k v).hasKey k' = (m.hasKey k' || k = k')
  | .nil, k, k', v => by
    by_cases hk : k = k' <;> simp [YMap.push, YMap.hasKey, YMap.find?, hk]
  | .cons k0 v0 rest, k, k', v => by
    have ih := YMap.hasKey_push rest k k' v
    simp only [YMap.hasKey] at ih
    by_cases hk0 : k0 = k' <;>
      simp [YMap.push, YMap.hasKey, YMap.find?, hk0, ih]

theorem fixNEWalk_cons_nofire (looking : Bool) (k : String) (v : Yaml) (rest : YMap)
    (h : ¬(looking = true ∧ k = "enum")) :
    fixNEWalk looking (.cons k v rest) = .cons k (fixNE v) (fixNEWalk looking rest) := by
  cases v with
  | arr l => rw [fixNEWalk.eq_2, if_neg h]
  | str s => rw [fixNEWalk.eq_3 _ _ _ _ (by intro l hl; cases hl), if_neg h]
  | int n => rw [fixNEWalk.eq_3 _ _ _ _ (by intro l hl; cases hl), if_neg h]
  | bool b => rw [fixNEWalk.eq_3 _ _ _ _ (by intro l hl; cases hl), if_neg h]
  | null => rw [fixNEWalk.eq_3 _ _ _ _ (by intro l hl; cases hl), if_neg h]
  | map mm => rw [fixNEWalk.eq_3 _ _ _ _ (by intro l hl; cases hl), if_neg h]

theorem fixNEWalk_false_cons (k : String) (v : Yaml) (rest : YMap) :
    fixNEWalk false (.cons k v rest) = .cons k (fixNE v) (fixNEWalk false rest) :=
  fixNEWalk_cons_nofire false k v rest (by simp)

theorem fixNEWalk_enum_arr (l : YArr) (rest : YMap) :
    fixNEWalk true (.cons "enum" (.arr l) rest) =
      .cons "enum"
        (.arr (if containsNullA l then filterNullA (fixNEArr l) else fixNEArr l))
        (fixNEWalk false rest) := by
  rw [fixNEWalk.eq_2, if_pos ⟨rfl, rfl⟩]
  by_cases hc : containsNullA l = true
  · rw [if_pos hc, if_pos hc]
  · rw [if_neg hc, if_neg hc]

theorem fixNEWalk_enum_nonarr (v : Yaml) (rest : YMap) (hv : ∀ l, v = Yaml.arr l → False) :
    fixNEWalk true (.cons "enum" v rest) = .cons "enum" (fixNE v) (fixNEWalk false rest) := by
  rw [fixNEWalk.eq_3 _ _ _ _ hv, if_pos ⟨rfl, rfl⟩]

theorem fixNEWalk_hasKey : ∀ (looking : Bool) (m : YMap) (k : String),
    (fixNEWalk looking m).hasKey k = m.hasKey k
  | _, .nil, _ => rfl
  | looking, .cons k0 v rest, k => by
    have ihF := fixNEWalk_hasKey false rest k
    have ihL := fixNEWalk_hasKey looking rest k
    simp only [YMap.hasKey] at ihF ihL
    by_cases hP : looking = true ∧ k0 = "enum"
    · obtain ⟨hl, hk0⟩ := hP
      subst hl; subst hk0
      cases v with
      | arr l =>
        rw [fixNEWalk_enum_arr]
        by_cases hk0 : ("enum" : String) = k <;>
          simp [YMap.hasKey, YMap.find?, hk0, ihF]
      | str s =>
        rw [fixNEWalk_enum_nonarr _ _ (by intro l hl; cases hl)]
        by_cases hk0 : ("enum" : String) = k <;> simp [YMap.hasKey, YMap.find?, hk0, ihF]
      | int n =>
        rw [fixNEWalk_enum_nonarr _ _ (by intro l hl; cases hl)]
        by_cases hk0 : ("enum" : String) = k <;> simp [YMap.hasKey, YMap.find?, hk0, ihF]
      | bool b =>
        rw [fixNEWalk_enum_nonarr _ _ (by intro l hl; cases hl)]
        by_cases hk0 : ("enum" : String) = k <;> simp [YMap.hasKey, YMap.find?, hk0, ihF]
      | null =>
        rw [fixNEWalk_enum_nonarr _ _ (by intro l hl; cases hl)]
        by_cases hk0 : ("enum" : String) = k <;> simp [YMap.hasKey, YMap.find?, hk0, ihF]
      | map mm =>
        rw [fixNEWalk_enum_nonarr _ _ (by intro l hl; cases hl)]
        by_cases hk0 : ("enum" : String) = k <;> simp [YMap.hasKey, YMap.find?, hk0, ihF]
    · rw [fixNEWalk_cons_nofire _ _ _ _ hP]
      by_cases hk0 : k0 = k <;> simp [YMap.hasKey, YMap.find?, hk0, ihL]

theorem fixNEWalk_find?_other : ∀ (looking : Bool) (m : YMap) (k : String), k ≠ "enum" →
    (fixNEWalk looking m).find? k = (m.find? k).map fixNE
  | _, .nil, _, _ => rfl
  | looking, .cons k0 v rest, k, hk => by
    have ihF := fixNEWalk_find?_other false rest k hk
    have ihL := fixNEWalk_find?_other looking rest k hk
    by_cases hP : looking = true ∧ k0 = "enum"
    · obtain ⟨hl, hk0⟩ := hP
      subst hl; subst hk0
      have hne : ("enum" : String) ≠ k := fun h => hk h.symm
      cases v with
      | arr l =>
        rw [fixNEWalk_enum_arr]
        simp [YMap.find?, hne, ihF]
      | str s =>
        rw [fixNEWalk_enum_nonarr _ _ (by intro l hl; cases hl)]
        simp [YMap.find?, hne, ihF]
      | int n =>
        rw [fixNEWalk_enum_nonarr _ _ (by intro l hl; cases hl)]
        simp [YMap.find?, hne, ihF]
      | bool b =>
        rw [fixNEWalk_enum_nonarr _ _ (by intro l hl; cases hl)]
        simp [YMap.find?, hne, ihF]
      | null =>
        rw [fixNEWalk_enum_nonarr _ _ (by intro l hl; cases hl)]
        simp [YMap.find?, hne, ihF]
      | map mm =>
        rw [fixNEWalk_enum_nonarr _ _ (by intro l hl; cases hl)]
        simp [YMap.find?, hne, ihF]
    · rw [fixNEWalk_cons_nofire _ _ _ _ hP]
      by_cases hk0 : k0 = k <;> simp [YMap.find?, hk0, ihL]

theorem fixNEWalk_find?_enum : ∀ m : YMap,
    (fixNEWalk true m).find? "enum" =
      (m.find? "enum").map (fun v =>
        match v with
        | .arr l => .arr (if containsNullA l then filterNullA (fixNEArr l) else fixNEArr l)
        | w => fixNE w)
  | .nil => rfl
  | .cons k0 v rest => by
    by_cases hk0 : k0 = "enum"
    · subst hk0
      cases v with
      | arr l => rw [fixNEWalk_enum_arr]; simp [YMap.find?]
      | str s =>
        rw [fixNEWalk_enum_nonarr _ _ (by intro l hl; cases hl)]; simp [YMap.find?]
      | int n =>
        rw [fixNEWalk_enum_nonarr _ _ (by intro l hl; cases hl)]; simp [YMap.find?]
      | bool b =>
        rw [fixNEWalk_enum_nonarr _ _ (by intro l hl; cases hl)]; simp [YMap.find?]
      | null =>
        rw [fixNEWalk_enum_nonarr _ _ (by intro l hl; cases hl)]; simp [YMap.find?]
      | map mm =>
        rw [fixNEWalk_enum_nonarr _ _ (by intro l hl; cases hl)]; simp [YMap.find?]
    · rw [fixNEWalk_cons_nofire _ _ _ _ (fun h => hk0 h.2)]
      simp [YMap.find?, hk0, fixNEWalk_find?_enum rest]

theorem fixNE_arr_cases : ∀ (w : Yaml) (l' : YArr), fixNE w = .arr l' →
    ∃ l, w = .arr l ∧ l' = fixNEArr l
  | .arr l, l', h => ⟨l, rfl, by simpa [fixNE] using h.symm⟩
  | .str _, _, h => by simp [fixNE] at h
  | .int _, _, h => by simp [fixNE] at h
  | .bool _, _, h => by simp [fixNE] at h
  | .null, _, h => by simp [fixNE] at h
  | .map _, _, h => by simp [fixNE] at h

theorem enumFires_fixEnums (m : YMap) : enumFires (fixEnums m) = false := by
  have hwalk : enumFires (fixNEWalk true m) = false := by
    unfold enumFires
    rw [fixNEWalk_find?_enum m]
    cases hf : m.find? "enum" with
    | none => rfl
    | some v =>
      cases v with
      | arr l =>
        by_cases hc : containsNullA l = true
        · simp [hc, containsNullA_filterNullA]
        · simp only [Bool.not_eq_true] at hc
          simp [hc, containsNullA_fixNEArr]
      | str s => simp [fixNE]
      | int n => simp [fixNE]
      | bool b => simp [fixNE]
      | null => simp [fixNE]
      | map mm => simp [fixNE]
  unfold fixEnums
  by_cases hC : (enumFires m && !m.hasKey "nullable" : Bool) = true
  · rw [if_pos hC]
    unfold enumFires at hwalk ⊢
    rw [YMap.find?_push_ne _ _ _ _ (by decide)]
    exact hwalk
  · rw [if_neg hC]
    exact hwalk

theorem fixNEWalk_push_nullable : ∀ (w : Yaml) (looking : Bool) (m : YMap),
    fixNEWalk looking (m.push "nullable" w) = (fixNEWalk looking m).push "nullable" (fixNE w)
  | w, looking, .nil => by
    have hP : ¬(looking = true ∧ ("nullable" : String) = "enum") := fun h => by
      have := h.2
      simp at this
    show fixNEWalk looking (.cons "nullable" w .nil) = _
    rw [fixNEWalk_cons_nofire _ _ _ _ hP]
    rfl
  | w, looking, .cons k0 v rest => by
    by_cases hP : looking = true ∧ k0 = "enum"
    · obtain ⟨hl, hk0⟩ := hP
      subst hl; subst hk0
      cases v with
      | arr l =>
        show fixNEWalk true (.cons "enum" (.arr l) (rest.push "nullable" w)) = _
        rw [fixNEWalk_enum_arr, fixNEWalk_enum_arr]
        simp [YMap.push, fixNEWalk_push_nullable w false rest]
      | str s =>
        show fixNEWalk true (.cons "enum" (.str s) (rest.push "nullable" w)) = _
        rw [fixNEWalk_enum_nonarr _ _ (by intro l hl; cases hl),
          fixNEWalk_enum_nonarr _ _ (by intro l hl; cases hl)]
        simp [YMap.push, fixNEWalk_push_nullable w false rest]
      | int n =>
        show fixNEWalk true (.cons "enum" (.int n) (rest.push "nullable" w)) = _
        rw [fixNEWalk_enum_nonarr _ _ (by intro l hl; cases hl),
          fixNEWalk_enum_nonarr _ _ (by intro l hl; cases hl)]
        simp [YMap.push, fixNEWalk_push_nullable w false rest]
      | bool b =>
        show fixNEWalk true (.cons "enum" (.bool b) (rest.push "nullable" w)) = _
        rw [fixNEWalk_enum_nonarr _ _ (by intro l hl; cases hl),
          fixNEWalk_enum_nonarr _ _ (by intro l hl; cases hl)]
        simp [YMap.push, fixNEWalk_push_nullable w false rest]
      | null =>
        show fixNEWalk true (.cons "enum" .null (rest.push "nullable" w)) = _
        rw [fixNEWalk_enum_nonarr _ _ (by intro l hl; cases hl),
          fixNEWalk_enum_nonarr _ _ (by intro l hl; cases hl)]
        simp [YMap.push, fixNEWalk_push_nullable w false rest]
      | map mm =>
        show fixNEWalk true (.cons "enum" (.map mm) (rest.push "nullable" w)) = _
        rw [fixNEWalk_enum_nonarr _ _ (by intro l hl; cases hl),
          fixNEWalk_enum_nonarr _ _ (by intro l hl; cases hl)]
        simp [YMap.push, fixNEWalk_push_nullable w false rest]
    · show fixNEWalk looking (.cons k0 v (rest.push "nullable" w)) = _
      rw [fixNEWalk_cons_nofire _ _ _ _ hP, fixNEWalk_cons_nofire _ _ _ _ hP]
      simp [YMap.push, fixNEWalk_push_nullable w looking rest]

theorem fixEnums_eq (d : YMap) :
    fixEnums d =
      if (enumFires d && !d.hasKey "nullable" : Bool) = true
      then (fixNEWalk true d).push "nullable" (.bool true)
      else fixNEWalk true d := rfl

theorem fixNE_map_eq (m : YMap) : fixNE (.map m) = .map (fixEnums m) := by
  simp only [fixNE, fixEnums]

mutual

theorem fixNE_idem : ∀ y : Yaml, fixNE (fixNE y) = fixNE y
  | .str _ => rfl
  | .int _ => rfl
  | .bool _ => rfl
  | .null => rfl
  | .arr l => by
    simp only [fixNE]
    rw [fixNEArr_idem l]
  | .map m => by
    rw [fixNE_map_eq m, fixNE_map_eq (fixEnums m)]
    have hff : enumFires (fixEnums m) = false := enumFires_fixEnums m
    rw [fixEnums_eq (fixEnums m)]
    rw [if_neg (by simp [hff])]
    by_cases hC : (enumFires m && !m.hasKey "nullable" : Bool) = true
    · have he : fixEnums m = (fixNEWalk true m).push "nullable" (.bool true) := by
        rw [fixEnums_eq m, if_pos hC]
      rw [he, fixNEWalk_push_nullable, fixNEWalk_idem true m]
      rfl
    · have he : fixEnums m = fixNEWalk true m := by
        rw [fixEnums_eq m, if_neg hC]
      rw [he, fixNEWalk_idem true m]

theorem fixNEArr_idem : ∀ l : YArr, fixNEArr (fixNEArr l) = fixNEArr l
  | .nil => rfl
  | .cons v rest => by
    simp only [fixNEArr]
    rw [fixNE_idem v, fixNEArr_idem rest]

theorem fixNEWalk_idem : ∀ (looking : Bool) (m : YMap),
    fixNEWalk looking (fixNEWalk looking m) = fixNEWalk looking m
  | _, .nil => rfl
  | looking, .cons k0 v rest => by
    by_cases hP : looking = true ∧ k0 = "enum"
    · obtain ⟨hl, hk0⟩ := hP
      subst hl; subst hk0
      cases v with
      | arr l =>
        rw [fixNEWalk_enum_arr]
        by_cases hc : containsNullA l = true
        · rw [if_pos hc, fixNEWalk_enum_arr,
            if_neg (by rw [containsNullA_filterNullA]; exact fun h => nomatch h),
            fixNEArr_filterNullA, fixNEArr_idem l, fixNEWalk_idem false rest]
        · rw [if_neg hc, fixNEWalk_enum_arr,
            if_neg (by rw [containsNullA_fixNEArr]; exact hc),
            fixNEArr_idem l, fixNEWalk_idem false rest]
      | str s =>
        rw [fixNEWalk_enum_nonarr _ _ (by intro l hl; cases hl),
          fixNEWalk_enum_nonarr _ _ (by intro l hl; simp [fixNE] at hl),
          fixNE_idem (.str s), fixNEWalk_idem false rest]
      | int n =>
        rw [fixNEWalk_enum_nonarr _ _ (by intro l hl; cases hl),
          fixNEWalk_enum_nonarr _ _ (by intro l hl; simp [fixNE] at hl),
          fixNE_idem (.int n), fixNEWalk_idem false rest]
      | bool b =>
        rw [fixNEWalk_enum_nonarr _ _ (by intro l hl; cases hl),
          fixNEWalk_enum_nonarr _ _ (by intro l hl; simp [fixNE] at hl),
          fixNE_idem (.bool b), fixNEWalk_idem false rest]
      | null =>
        rw [fixNEWalk_enum_nonarr _ _ (by intro l hl; cases hl),
          fixNEWalk_enum_nonarr _ _ (by intro l hl; simp [fixNE] at hl),
          fixNE_idem .null, fixNEWalk_idem false rest]
      | map mm =>
        rw [fixNEWalk_enum_nonarr _ _ (by intro l hl; cases hl),
          fixNEWalk_enum_nonarr _ _ (by intro l hl; simp [fixNE] at hl),
          fixNE_idem (.map mm), fixNEWalk_idem false rest]
    · rw [fixNEWalk_cons_nofire _ _ _ _ hP, fixNEWalk_cons_nofire _ _ _ _ hP,
        fixNE_idem v, fixNEWalk_idem looking rest]

end

theorem fixEnums_idem (m : YMap) : fixEnums (fixEnums m) = fixEnums m := by
  have h := fixNE_idem (.map m)
  rw [fixNE_map_eq m, fixNE_map_eq (fixEnums m)] at h
  exact Yaml.map.inj h

/-! ## Claim C6: the enum/nullable repair and its idempotence -/

/-- C6: whenever a mapping node has `enum: [a, b, null]` (with non-null
scalar members, i.e. members the repair leaves unchanged) and no `nullable`
binding, the repair rewrites that node's `enum` to `[a, b]` and appends
`nullable: true`; and applying the repair twice to any document yields the
same result as applying it once.  (`fixNE (.map m) = .map (fixEnums m)`
holds definitionally, and the repair recurses through every subtree, so the
per-node statement covers a node at any position of a document.) -/
theorem C6_enum_repair :
    (∀ (m : YMap) (a b : Yaml),
      m.find? "enum" = some (.arr (.cons a (.cons b (.cons .null .nil)))) →
      m.hasKey "nullable" = false →
      a ≠ .null → b ≠ .null → fixNE a = a → fixNE b = b →
      (fixEnums m).find? "enum" = some (.arr (.cons a (.cons b .nil))) ∧
      (fixEnums m).find? "nullable" = some (.bool true)) ∧
    (∀ y : Yaml, fixNE (fixNE y) = fixNE y) := by
  constructor
  · intro m a b henum hnn ha hb hfa hfb
    have hfires : enumFires m = true := by
      unfold enumFires
      rw [henum]
      simp [containsNullA]
    have hcond : (enumFires m && !m.hasKey "nullable" : Bool) = true := by
      rw [hfires, hnn]
      rfl
    have hpush : fixEnums m = (fixNEWalk true m).push "nullable" (.bool true) := by
      rw [fixEnums_eq m, if_pos hcond]
    constructor
    · rw [hpush, YMap.find?_push_ne _ _ _ _ (by decide), fixNEWalk_find?_enum m, henum]
      simp only [Option.map_some']
      have hcl : containsNullA (.cons a (.cons b (.cons .null .nil))) = true := by
        simp [containsNullA]
      rw [if_pos hcl]
      simp only [fixNEArr]
      rw [hfa, hfb]
      simp [filterNullA, ha, hb, fixNE]
    · have hwalkn : (fixNEWalk true m).find? "nullable" = none := by
        have h := fixNEWalk_hasKey true m "nullable"
        rw [hnn] at h
        simp only [YMap.hasKey] at h
        cases hfind : (fixNEWalk true m).find? "nullable" with
        | none => rfl
        | some w => rw [hfind] at h; simp at h
      rw [hpush, YMap.find?_push_of_none _ _ _ hwalkn]
  · exact fixNE_idem

def C6exampleNode : YMap :=
  .cons "enum" (.arr (.cons (.str "a") (.cons (.str "b") (.cons .null .nil)))) .nil

/-- Witness for C6 at the node `{enum: [a, b, null]}`. -/
theorem C6_enum_repair_witness :
    ((fixEnums C6exampleNode).find? "enum" =
        some (.arr (.cons (.str "a") (.cons (.str "b") .nil))) ∧
      (fixEnums C6exampleNode).find? "nullable" = some (.bool true)) ∧
    fixNE (fixNE (.map C6exampleNode)) = fixNE (.map C6exampleNode) :=
  ⟨C6_enum_repair.1 C6exampleNode (.str "a") (.str "b") (by decide) (by decide)
      (by decide) (by decide) (by decide) (by decide),
    C6_enum_repair.2 (.map C6exampleNode)⟩

/-! ## Association-list lemmas for the merge engine -/

theorem YMap.find?_update_self : ∀ (m : YMap) (k : String) (v : Yaml),
    m.hasKey k = true → (m.update k v).find? k = some v
  | .nil, k, v, h => by simp [YMap.hasKey, YMap.find?] at h
  | .cons k0 v0 rest, k, v, h => by
    by_cases hk0 : k0 = k
    · simp [YMap.update, YMap.find?, hk0]
    · simp only [YMap.hasKey, YMap.find?, hk0, if_false, if_neg hk0] at h
      simp [YMap.update, YMap.find?, hk0,
        YMap.find?_update_self rest k v (by simpa [YMap.hasKey] using h)]

theorem YMap.find?_update_ne : ∀ (m : YMap) (k k' : String) (v : Yaml), k ≠ k' →
    (m.update k v).find? k' = m.find? k'
  | .nil, _, _, _, _ => rfl
  | .cons k0 v0 rest, k, k', v, hk => by
    by_cases hk0 : k0 = k
    · subst hk0
      simp [YMap.update, YMap.find?, hk]
    · simp [YMap.update, YMap.find?, hk0, YMap.find?_update_ne rest k k' v hk]

theorem YMap.hasKey_update : ∀ (m : YMap) (k k' : String) (v : Yaml),
    (m.update k v).hasKey k' = m.hasKey k'
  | .nil, _, _, _ => rfl
  | .cons k0 v0 rest, k, k', v => by
    have ih := YMap.hasKey_update rest k k' v
    simp only [YMap.hasKey] at ih ⊢
    by_cases hk0 : k0 = k
    · subst hk0
      by_cases hkk : k0 = k'
      · subst hkk
        simp [YMap.update, YMap.find?]
      · simp [YMap.update, YMap.find?, hkk]
    · by_cases hkk : k0 = k'
      · subst hkk
        simp [YMap.update, YMap.find?, hk0]
      · simp [YMap.update, YMap.find?, hk0, hkk, ih]

theorem YMap.find?_insert_self : ∀ (m : YMap) (k : String) (v : Yaml),
    (m.insert k v).find? k = some v
  | .nil, k, v => by simp [YMap.insert, YMap.find?]
  | .cons k0 v0 rest, k, v => by
    by_cases hk0 : k0 = k
    · simp [YMap.insert, YMap.find?, hk0]
    · simp [YMap.insert, YMap.find?, hk0, YMap.find?_insert_self rest k v]

theorem YMap.find?_insert_ne : ∀ (m : YMap) (k k' : String) (v : Yaml), k ≠ k' →
    (m.insert k v).find? k' = m.find? k'
  | .nil, k, k', v, hk => by simp [YMap.insert, YMap.find?, hk]
  | .cons k0 v0 rest, k, k', v, hk => by
    by_cases hk0 : k0 = k
    · subst hk0
      simp [YMap.insert, YMap.find?, hk]
    · simp [YMap.insert, YMap.find?, hk0, YMap.find?_insert_ne rest k k' v hk]

theorem YMap.hasKey_insert : ∀ (m : YMap) (k k' : String) (v : Yaml),
    (m.insert k v).hasKey k' = (m.hasKey k' || k = k')
  | .nil, k, k', v => by
    by_cases hk : k = k' <;> simp [YMap.insert, YMap.hasKey, YMap.find?, hk]
  | .cons k0 v0 rest, k, k', v => by
    have ih := YMap.hasKey_insert rest k k' v
    simp only [YMap.hasKey] at ih ⊢
    by_cases hk0 : k0 = k
    · subst hk0
      by_cases hkk : k0 = k'
      · subst hkk
        simp [YMap.insert, YMap.find?]
      · simp [YMap.insert, YMap.find?, hkk]
    · by_cases hkk : k0 = k'
      · subst hkk
        simp [YMap.insert, YMap.find?, hk0]
      · simp [YMap.insert, YMap.find?, hk0, hkk, ih]

theorem YMap.hasKey_iff_mem_keys : ∀ (m : YMap) (k : String),
    m.hasKey k = true ↔ k ∈ m.keys
  | .nil, k => by simp [YMap.hasKey, YMap.find?, YMap.keys]
  | .cons k0 v0 rest, k => by
    have ih := YMap.hasKey_iff_mem_keys rest k
    simp only [YMap.hasKey] at ih ⊢
    by_cases hk0 : k0 = k
    · subst hk0
      simp [YMap.find?, YMap.keys]
    · simp [YMap.find?, YMap.keys, hk0, ih, Ne.symm hk0]

/-- The bindings of a mapping, as a list. -/
def YMap.entries : YMap → List (String × Yaml)
  | .nil => []
  | .cons k v rest => (k, v) :: rest.entries

theorem YMap.mem_keys_of_mem_entries : ∀ (m : YMap) (e : String × Yaml),
    e ∈ m.entries → e.1 ∈ m.keys
  | .nil, e, h => by simp [YMap.entries] at h
  | .cons k0 v0 rest, e, h => by
    rcases (by simpa [YMap.entries] using h : e = (k0, v0) ∨ e ∈ rest.entries) with h' | h'
    · simp [h', YMap.keys]
    · simp [YMap.keys, YMap.mem_keys_of_mem_entries rest e h']

/-! ## Merge-engine plumbing lemmas -/

theorem tagsStepE_find?_ne (t r : YMap) (k : String) (hk : k ≠ "tags")
    (h : tagsStepE t = .ok r) : r.find? k = t.find? k := by
  have hk' : "tags" ≠ k := fun he => hk he.symm
  unfold tagsStepE at h
  cases ht : t.find? "tags" with
  | none =>
    rw [ht] at h
    simp only [Except.ok.injEq] at h
    rw [← h, YMap.find?_push_ne _ _ _ _ hk']
  | some v =>
    rw [ht] at h
    cases v with
    | arr ts =>
      dsimp only [] at h
      cases htn : tagNamesE ts with
      | error e => rw [htn] at h; simp [Bind.bind, Except.bind] at h
      | ok names =>
        rw [htn] at h
        simp only [Bind.bind, Except.bind] at h
        by_cases hempty :
            (curatedTags.filter fun tg => !(names.contains (.str tg.1))).isEmpty = true
        · rw [if_pos hempty] at h
          simp only [Except.ok.injEq] at h
          rw [← h]
        · rw [if_neg hempty] at h
          simp only [Except.ok.injEq] at h
          rw [← h, YMap.find?_update_ne _ _ _ _ hk']
    | str s => simp at h
    | int n => simp at h
    | bool b => simp at h
    | null => simp at h
    | map mm => simp at h

theorem insertStagedE_ok (t staged o : YMap) (h : insertStagedE t staged = .ok o) :
    (staged = .nil ∧ o = t) ∨
    ∃ pm, t.find? "paths" = some (.map pm) ∧
      o = t.update "paths" (.map (insertAllPaths pm staged)) := by
  cases staged with
  | nil =>
    simp only [insertStagedE, Except.ok.injEq] at h
    exact Or.inl ⟨rfl, h.symm⟩
  | cons k0 v0 rest =>
    unfold insertStagedE at h
    cases hp : t.find? "paths" with
    | none => rw [hp] at h; simp at h
    | some v =>
      rw [hp] at h
      cases v with
      | map pm =>
        simp only [Except.ok.injEq] at h
        exact Or.inr ⟨pm, rfl, h.symm⟩
      | str s => simp at h
      | int n => simp at h
      | bool b => simp at h
      | null => simp at h
      | arr l => simp at h

theorem mergeE_ok_decomp (t s r pm sm : YMap)
    (hp : t.find? "paths" = some (.map pm)) (hs : s.find? "paths" = some (.map sm))
    (hok : mergeE t s = .ok r) :
    ∃ o, insertStagedE t (stagePaths pm.keys sm) = .ok o ∧ tagsStepE o = .ok r := by
  unfold mergeE getPathsKeysE compPathsE at hok
  rw [hp, hs] at hok
  simp only [Bind.bind, Except.bind] at hok
  cases his : insertStagedE t (stagePaths pm.keys sm) with
  | error e => rw [his] at hok; simp at hok
  | ok o =>
    rw [his] at hok
    exact ⟨o, rfl, hok⟩

theorem stageGo_of_all_present (offKeys : List String) : ∀ (cp acc : YMap),
    (∀ e ∈ cp.entries, normalizePath e.1 ∈ offKeys) → stageGo offKeys acc cp = acc
  | .nil, acc, _ => rfl
  | .cons p item rest, acc, h => by
    have hp : normalizePath p ∈ offKeys := h (p, item) (by simp [YMap.entries])
    simp only [stageGo, if_pos hp]
    exact stageGo_of_all_present offKeys rest acc fun e he =>
      h e (by simp [YMap.entries, he])

theorem stageGo_find?_of_no_collision (offKeys : List String) : ∀ (cp acc : YMap) (K : String),
    (∀ e ∈ cp.entries, normalizePath e.1 ≠ K) →
    (stageGo offKeys acc cp).find? K = acc.find? K
  | .nil, _, _, _ => rfl
  | .cons p item rest, acc, K, h => by
    have hne : normalizePath p ≠ K := h (p, item) (by simp [YMap.entries])
    have hrest : ∀ e ∈ rest.entries, normalizePath e.1 ≠ K := fun e he =>
      h e (by simp [YMap.entries, he])
    by_cases hin : normalizePath p ∈ offKeys
    · simp only [stageGo, if_pos hin]
      exact stageGo_find?_of_no_collision offKeys rest acc K hrest
    · simp only [stageGo, if_neg hin]
      rw [stageGo_find?_of_no_collision offKeys rest _ K hrest,
        YMap.find?_insert_ne _ _ _ _ hne]

theorem stageGo_hasKey_iff (offKeys : List String) : ∀ (cp acc : YMap) (k : String),
    (stageGo offKeys acc cp).hasKey k = true ↔
      acc.hasKey k = true ∨ ∃ e ∈ cp.entries, normalizePath e.1 = k ∧ k ∉ offKeys
  | .nil, acc, k => by simp [stageGo, YMap.entries]
  | .cons p item rest, acc, k => by
    have ih := stageGo_hasKey_iff offKeys rest
    by_cases hin : normalizePath p ∈ offKeys
    · simp only [stageGo, if_pos hin]
      rw [ih acc k]
      constructor
      · rintro (h | ⟨e, he, hn, hnk⟩)
        · exact Or.inl h
        · exact Or.inr ⟨e, by simp [YMap.entries, he], hn, hnk⟩
      · rintro (h | ⟨e, he, hn, hnk⟩)
        · exact Or.inl h
        · rcases (by simpa [YMap.entries] using he :
              e = (p, item) ∨ e ∈ rest.entries) with h' | h'
          · subst h'
            exact absurd (hn ▸ hin) hnk
          · exact Or.inr ⟨e, h', hn, hnk⟩
    · simp only [stageGo, if_neg hin]
      rw [ih _ k]
      constructor
      · rintro (h | ⟨e, he, hn, hnk⟩)
        · rw [YMap.hasKey_insert] at h
          rcases Bool.or_eq_true _ _ |>.mp h with h' | h'
          · exact Or.inl h'
          · have hnp : normalizePath p = k := by simpa using h'
            exact Or.inr ⟨(p, item), by simp [YMap.entries], hnp, hnp ▸ hin⟩
        · exact Or.inr ⟨e, by simp [YMap.entries, he], hn, hnk⟩
      · rintro (h | ⟨e, he, hn, hnk⟩)
        · exact Or.inl (by rw [YMap.hasKey_insert]; simp [h])
        · rcases (by simpa [YMap.entries] using he :
              e = (p, item) ∨ e ∈ rest.entries) with h' | h'
          · subst h'
            exact Or.inl (by rw [YMap.hasKey_insert]; simp [hn])
          · exact Or.inr ⟨e, h', hn, hnk⟩

/-! ## Claim C3: merge of a document with itself -/

def C3doc : YMap := .cons "paths" (.map (.cons "/api/foo" (.str "x") .nil)) .nil

/-- C3 counterexample: for a document whose path key `/api/foo` is not
fixed by normalization, `merge(D, D)` adds the normalized path `/foo`, so
`D.paths` does not stay unchanged. -/
theorem C3_counterexample :
    (mergeE C3doc C3doc).toOption.map (fun r => r.find? "paths") =
      some (some (.map (.cons "/api/foo" (.str "x") (.cons "/foo" (.str "x") .nil)))) ∧
    Yaml.map (.cons "/api/foo" (.str "x") (.cons "/foo" (.str "x") .nil)) ≠
      .map (.cons "/api/foo" (.str "x") .nil) :=
  ⟨by decide, by decide⟩

/-- C3 as amended: merge never touches the `components` section of any
target, and `merge(D, D)` leaves `D.paths` unchanged provided every path
key of `D` normalizes to a key of `D.paths` (without that proviso the
normalized copy of a non-normalized key is added, see the counterexample). -/
theorem C3_amended :
    (∀ t s r : YMap, mergeE t s = .ok r → r.find? "components" = t.find? "components") ∧
    (∀ D pm r : YMap, D.find? "paths" = some (.map pm) →
      (∀ p ∈ pm.keys, normalizePath p ∈ pm.keys) →
      mergeE D D = .ok r → r.find? "paths" = D.find? "paths") := by
  constructor
  · intro t s r hok
    unfold mergeE at hok
    cases hg : getPathsKeysE t with
    | error e => rw [hg] at hok; simp [Bind.bind, Except.bind] at hok
    | ok offK =>
      rw [hg] at hok
      cases hc : compPathsE s with
      | error e => rw [hc] at hok; simp [Bind.bind, Except.bind] at hok
      | ok cp =>
        rw [hc] at hok
        simp only [Bind.bind, Except.bind] at hok
        cases hi : insertStagedE t (stagePaths offK cp) with
        | error e => rw [hi] at hok; simp at hok
        | ok o =>
          rw [hi] at hok
          rw [tagsStepE_find?_ne o r "components" (by decide) hok]
          rcases insertStagedE_ok t _ o hi with ⟨_, ho⟩ | ⟨pm, _, ho⟩
          · rw [ho]
          · rw [ho, YMap.find?_update_ne _ _ _ _ (by decide)]
  · intro D pm r hpaths hnorm hok
    obtain ⟨o, hins, htags⟩ := mergeE_ok_decomp D D r pm pm hpaths hpaths hok
    have hstaged : stagePaths pm.keys pm = .nil :=
      stageGo_of_all_present pm.keys pm .nil fun e he =>
        hnorm e.1 (YMap.mem_keys_of_mem_entries pm e he)
    rw [hstaged] at hins
    simp only [insertStagedE, Except.ok.injEq] at hins
    rw [← hins] at htags
    exact tagsStepE_find?_ne D r "paths" (by decide) htags

def C3Wdoc : YMap :=
  .cons "paths" (.map (.cons "/foo" (.str "x") .nil)) (.cons "components" (.map .nil) .nil)

def C3Wres : YMap := C3Wdoc.push "tags" (.arr (YArr.ofList (curatedTags.map tagYaml)))

/-- Witness for C3 as amended, at a normalization-closed document. -/
theorem C3_amended_witness :
    C3Wres.find? "paths" = C3Wdoc.find? "paths" ∧
    C3Wres.find? "components" = C3Wdoc.find? "components" :=
  ⟨C3_amended.2 C3Wdoc (.cons "/foo" (.str "x") .nil) C3Wres (by decide) (by decide)
      (by rfl),
    C3_amended.1 C3Wdoc C3Wdoc C3Wres (by rfl)⟩

/-! ## Insertion of staged paths -/

theorem insertAllPaths_find?_of_not_staged : ∀ (staged pm : YMap) (k : String),
    staged.hasKey k = false → (insertAllPaths pm staged).find? k = pm.find? k
  | .nil, pm, k, _ => rfl
  | .cons k0 v0 rest, pm, k, h => by
    simp only [YMap.hasKey, YMap.find?] at h
    by_cases hk0 : k0 = k
    · simp [hk0] at h
    · simp only [hk0, if_false] at h
      simp only [insertAllPaths]
      rw [insertAllPaths_find?_of_not_staged rest _ k (by simpa [YMap.hasKey] using h),
        YMap.find?_insert_ne _ _ _ _ hk0]

theorem insertAllPaths_hasKey : ∀ (staged pm : YMap) (k : String),
    (insertAllPaths pm staged).hasKey k = (pm.hasKey k || staged.hasKey k)
  | .nil, pm, k => by simp [insertAllPaths, YMap.hasKey, YMap.find?]
  | .cons k0 v0 rest, pm, k => by
    simp only [insertAllPaths]
    rw [insertAllPaths_hasKey rest _ k, YMap.hasKey_insert]
    by_cases hk0 : k0 = k <;>
      simp [YMap.hasKey, YMap.find?, hk0, Bool.or_assoc, Bool.or_comm]

theorem insertAllPaths_find?_of_staged : ∀ (staged pm : YMap) (k : String),
    staged.keys.Nodup → staged.hasKey k = true →
    (insertAllPaths pm staged).find? k = staged.find? k
  | .nil, pm, k, _, h => by simp [YMap.hasKey, YMap.find?] at h
  | .cons k0 v0 rest, pm, k, hnd, h => by
    have hnd' : rest.keys.Nodup ∧ k0 ∉ rest.keys := by
      have := List.nodup_cons.mp (by simpa [YMap.keys] using hnd)
      exact ⟨this.2, this.1⟩
    by_cases hk0 : k0 = k
    · subst hk0
      have hrest : rest.hasKey k0 = false := by
        cases hr : rest.hasKey k0 with
        | false => rfl
        | true => exact absurd ((YMap.hasKey_iff_mem_keys rest k0).mp hr) hnd'.2
      simp only [insertAllPaths]
      rw [insertAllPaths_find?_of_not_staged rest _ k0 hrest, YMap.find?_insert_self]
      simp [YMap.find?]
    · have h' : rest.hasKey k = true := by
        simpa [YMap.hasKey, YMap.find?, hk0] using h
      simp only [insertAllPaths]
      rw [insertAllPaths_find?_of_staged rest _ k hnd'.1 h']
      simp [YMap.find?, hk0]

theorem YMap.keys_insert : ∀ (m : YMap) (k : String) (v : Yaml),
    (m.insert k v).keys = if m.hasKey k = true then m.keys else m.keys ++ [k]
  | .nil, k, v => by simp [YMap.insert, YMap.keys, YMap.hasKey, YMap.find?]
  | .cons k0 v0 rest, k, v => by
    by_cases hk0 : k0 = k
    · subst hk0
      simp [YMap.insert, YMap.keys, YMap.hasKey, YMap.find?]
    · simp only [YMap.insert, hk0, if_false, YMap.keys]
      rw [YMap.keys_insert rest k v]
      have : (YMap.cons k0 v0 rest).hasKey k = rest.hasKey k := by
        simp [YMap.hasKey, YMap.find?, hk0]
      rw [this]
      by_cases hr : rest.hasKey k = true <;> simp [hr, YMap.keys]

theorem YMap.nodup_keys_insert (m : YMap) (k : String) (v : Yaml)
    (h : m.keys.Nodup) : (m.insert k v).keys.Nodup := by
  rw [YMap.keys_insert]
  by_cases hk : m.hasKey k = true
  · simpa [hk]
  · have hk' : k ∉ m.keys := fun hm =>
      hk ((YMap.hasKey_iff_mem_keys m k).mpr hm)
    simp only [hk, if_false]
    simp [List.nodup_append, h, hk']

theorem stageGo_nodup_keys (offKeys : List String) : ∀ (cp acc : YMap),
    acc.keys.Nodup → (stageGo offKeys acc cp).keys.Nodup
  | .nil, acc, h => h
  | .cons p item rest, acc, h => by
    by_cases hin : normalizePath p ∈ offKeys
    · simp only [stageGo, if_pos hin]
      exact stageGo_nodup_keys offKeys rest acc h
    · simp only [stageGo, if_neg hin]
      exact stageGo_nodup_keys offKeys rest _ (YMap.nodup_keys_insert acc _ _ h)

theorem stageGo_find?_last (offKeys : List String) :
    ∀ (l₁ : List (String × Yaml)) (p : String) (item : Yaml) (l₂ : List (String × Yaml))
      (cp acc : YMap),
      cp.entries = l₁ ++ (p, item) :: l₂ →
      (∀ e ∈ l₂, normalizePath e.1 ≠ normalizePath p) →
      normalizePath p ∉ offKeys →
      (stageGo offKeys acc cp).find? (normalizePath p) = some (convertPathItem item)
  | [], p, item, l₂, cp, acc, hent, hlast, hnot => by
    cases cp with
    | nil => simp [YMap.entries] at hent
    | cons q w rest =>
      simp only [YMap.entries, List.nil_append, List.cons.injEq, Prod.mk.injEq] at hent
      obtain ⟨⟨hq, hw⟩, hrest⟩ := hent
      rw [show q = p from hq, show w = item from hw]
      simp only [stageGo, if_neg hnot]
      rw [stageGo_find?_of_no_collision offKeys rest _ (normalizePath p)
        (fun e he => hlast e (hrest ▸ he))]
      exact YMap.find?_insert_self acc _ _
  | e₁ :: l₁', p, item, l₂, cp, acc, hent, hlast, hnot => by
    cases cp with
    | nil => simp [YMap.entries] at hent
    | cons q w rest =>
      simp only [YMap.entries, List.cons_append, List.cons.injEq] at hent
      obtain ⟨hqw, hrest⟩ := hent
      by_cases hin : normalizePath q ∈ offKeys
      · simp only [stageGo, if_pos hin]
        exact stageGo_find?_last offKeys l₁' p item l₂ rest acc hrest hlast hnot
      · simp only [stageGo, if_neg hin]
        exact stageGo_find?_last offKeys l₁' p item l₂ rest _ hrest hlast hnot

/-! ## Claim C2: path-level merge behavior -/

def C2cexTarget : YMap := .cons "paths" (.map .nil) .nil

def C2cexSource : YMap :=
  .cons "paths" (.map (.cons "/a" (.str "X") (.cons "/api/a" (.str "Y") .nil))) .nil

/-- C2 counterexample: the source entries `/a ↦ X` and `/api/a ↦ Y` both
normalize to the missing key `/a`; the claim demands that each entry's
converted path object be inserted, but only the later entry survives: the
result holds `Y`, not the converted `X` of the entry `(/a, X)`. -/
theorem C2_counterexample :
    (mergeE C2cexTarget C2cexSource).toOption.map (fun r => r.find? "paths") =
      some (some (.map (.cons "/a" (.str "Y") .nil))) ∧
    normalizePath "/a" = "/a" ∧
    normalizePath "/api/a" = "/a" ∧
    convertPathItem (.str "X") = .str "X" ∧
    Yaml.str "Y" ≠ .str "X" :=
  ⟨by decide, by decide, by decide, by decide, by decide⟩

/-- C2 as amended: under merge, a path key already present in the target
keeps its PathItem exactly unchanged; the resulting path-key set is the
union of the target's original keys and the normalized source keys; and a
source entry whose normalized key is missing from the target is inserted
with its converted path object provided no later source entry normalizes
to the same key (otherwise the last such entry wins, dict-style). -/
theorem C2_amended (t s r pm sm : YMap)
    (hp : t.find? "paths" = some (.map pm)) (hs : s.find? "paths" = some (.map sm))
    (hok : mergeE t s = .ok r) :
    ∃ pm', r.find? "paths" = some (.map pm') ∧
      (∀ k, pm.hasKey k = true → pm'.find? k = pm.find? k) ∧
      (∀ k, pm'.hasKey k = true ↔
        (pm.hasKey k = true ∨ ∃ e ∈ sm.entries, normalizePath e.1 = k)) ∧
      (∀ (l₁ : List (String × Yaml)) (p : String) (item : Yaml) (l₂ : List (String × Yaml)),
        sm.entries = l₁ ++ (p, item) :: l₂ →
        (∀ e ∈ l₂, normalizePath e.1 ≠ normalizePath p) →
        pm.hasKey (normalizePath p) = false →
        pm'.find? (normalizePath p) = some (convertPathItem item)) := by
  obtain ⟨o, hins, htags⟩ := mergeE_ok_decomp t s r pm sm hp hs hok
  have hrfind : r.find? "paths" = o.find? "paths" :=
    tagsStepE_find?_ne o r "paths" (by decide) htags
  rcases insertStagedE_ok t _ o hins with ⟨hnil, ho⟩ | ⟨pmx, hpx, ho⟩
  · -- nothing staged: every normalized source key already exists in the target
    refine ⟨pm, by rw [hrfind, ho, hp], fun k _ => rfl, ?_, ?_⟩
    · intro k
      constructor
      · exact fun h => Or.inl h
      · rintro (h | ⟨e, he, hn⟩)
        · exact h
        · by_cases hk : pm.hasKey k = true
          · exact hk
          · exfalso
            have hkm : k ∉ pm.keys := fun hm =>
              hk ((YMap.hasKey_iff_mem_keys pm k).mpr hm)
            have : (stagePaths pm.keys sm).hasKey k = true :=
              (stageGo_hasKey_iff pm.keys sm .nil k).mpr (Or.inr ⟨e, he, hn, hkm⟩)
            rw [hnil] at this
            simp [YMap.hasKey, YMap.find?] at this
    · intro l₁ p item l₂ hent _ hmiss
      exfalso
      have hkm : normalizePath p ∉ pm.keys := fun hm =>
        (by simp [(YMap.hasKey_iff_mem_keys pm _).mpr hm] at hmiss)
      have : (stagePaths pm.keys sm).hasKey (normalizePath p) = true :=
        (stageGo_hasKey_iff pm.keys sm .nil _).mpr
          (Or.inr ⟨(p, item), by simp [hent], rfl, hkm⟩)
      rw [hnil] at this
      simp [YMap.hasKey, YMap.find?] at this
  · -- something staged: the paths section becomes the insertion result
    have hpm : pmx = pm := by
      rw [hp] at hpx
      exact (Yaml.map.inj (Option.some.inj hpx)).symm
    subst hpm
    set staged := stagePaths pmx.keys sm with hstaged
    refine ⟨insertAllPaths pmx staged, ?_, ?_, ?_, ?_⟩
    · rw [hrfind, ho, YMap.find?_update_self t "paths" _ (by simp [YMap.hasKey, hp])]
    · intro k hk
      have hsk : staged.hasKey k = false := by
        cases hskq : staged.hasKey k with
        | false => rfl
        | true =>
          rcases (stageGo_hasKey_iff pmx.keys sm .nil k).mp hskq with h' | ⟨e, _, _, hkm⟩
          · simp [YMap.hasKey, YMap.find?] at h'
          · exact absurd ((YMap.hasKey_iff_mem_keys pmx k).mp hk) hkm
      exact insertAllPaths_find?_of_not_staged staged pmx k hsk
    · intro k
      rw [insertAllPaths_hasKey staged pmx k]
      constructor
      · intro h
        rcases Bool.or_eq_true _ _ |>.mp h with h' | h'
        · exact Or.inl h'
        · rcases (stageGo_hasKey_iff pmx.keys sm .nil k).mp h' with h'' | ⟨e, he, hn, _⟩
          · simp [YMap.hasKey, YMap.find?] at h''
          · exact Or.inr ⟨e, he, hn⟩
      · rintro (h | ⟨e, he, hn⟩)
        · simp [h]
        · by_cases hk : pmx.hasKey k = true
          · simp [hk]
          · have hkm : k ∉ pmx.keys := fun hm =>
              hk ((YMap.hasKey_iff_mem_keys pmx k).mpr hm)
            have hst : staged.hasKey k = true :=
              (stageGo_hasKey_iff pmx.keys sm .nil k).mpr (Or.inr ⟨e, he, hn, hkm⟩)
            simp [hst]
    · intro l₁ p item l₂ hent hlast hmiss
      have hkm : normalizePath p ∉ pmx.keys := fun hm =>
        (by simp [(YMap.hasKey_iff_mem_keys pmx _).mpr hm] at hmiss)
      have hfind : staged.find? (normalizePath p) = some (convertPathItem item) :=
        stageGo_find?_last pmx.keys l₁ p item l₂ sm .nil hent hlast hkm
      have hnd : staged.keys.Nodup :=
        stageGo_nodup_keys pmx.keys sm .nil (by simp [YMap.keys])
      have hskp : staged.hasKey (normalizePath p) = true := by
        simp [YMap.hasKey, hfind]
      rw [insertAllPaths_find?_of_staged staged pmx _ hnd hskp, hfind]

def C2Wt : YMap := .cons "paths" (.map (.cons "/keep" (.str "K") .nil)) .nil

def C2Ws : YMap := .cons "paths" (.map (.cons "/api/new" (.str "N") .nil)) .nil

def C2Wres : YMap :=
  match mergeE C2Wt C2Ws with
  | .ok r => r
  | .error _ => .nil

/-- Witness for C2 as amended: the existing path `/keep` is untouched and
the staged path `/api/new` is inserted, converted, under `/new`. -/
theorem C2_amended_witness :
    ∃ pm', C2Wres.find? "paths" = some (.map pm') ∧
      pm'.find? "/keep" = some (.str "K") ∧
      pm'.find? "/new" = some (convertPathItem (.str "N")) := by
  obtain ⟨pm', h1, h2, h3, h4⟩ :=
    C2_amended C2Wt C2Ws C2Wres (.cons "/keep" (.str "K") .nil) (.cons "/api/new" (.str "N") .nil)
      (by decide) (by decide) (by rfl)
  refine ⟨pm', h1, ?_, ?_⟩
  · rw [h2 "/keep" (by decide)]
    decide
  · have h := h4 [] "/api/new" (.str "N") [] (by decide) (by simp) (by decide)
    rw [show normalizePath "/api/new" = "/new" from by decide] at h
    exact h

/-! ## Claim C8: when merge can fail -/

/-- The section under `k` is present and a mapping. -/
def isMapSection (d : YMap) (k : String) : Bool :=
  match d.find? k with
  | some (.map _) => true
  | _ => false

/-- Every tag entry is a mapping with a scalar (hashable) `name` value —
the shape on which the tag-reconciliation lines of `main` cannot raise. -/
def tagsOkA : YArr → Bool
  | .nil => true
  | .cons t rest =>
    (match t with
     | .map tm =>
       match tm.find? "name" with
       | some (.map _) => false
       | some (.arr _) => false
       | some _ => true
       | none => false
     | _ => false) && tagsOkA rest

def wfTagsSection (d : YMap) : Bool :=
  match d.find? "tags" with
  | none => true
  | some (.arr ts) => tagsOkA ts
  | some _ => false

def C8cexTarget : YMap :=
  .cons "paths" (.map .nil)
    (.cons "components" (.map .nil) (.cons "tags" (.arr (.cons (.map .nil) .nil)) .nil))

def C8cexSource : YMap := .cons "paths" (.map .nil) (.cons "components" (.map .nil) .nil)

/-- C8 counterexample: both documents have `paths` and `components`
sections of the expected mapping shape, yet merge fails, because the
target's `tags` sequence holds an entry without a `name` binding (the
`tag['name']` comprehension raises).  Merge can therefore fail on input
whose `paths`/`components` sections are well-formed. -/
theorem C8_counterexample :
    isMapSection C8cexTarget "paths" = true ∧
    isMapSection C8cexTarget "components" = true ∧
    isMapSection C8cexSource "paths" = true ∧
    isMapSection C8cexSource "components" = true ∧
    mergeE C8cexTarget C8cexSource = .error () :=
  ⟨by decide, by decide, by decide, by decide, by rfl⟩

theorem tagNamesE_ok : ∀ ts : YArr, tagsOkA ts = true → ∃ names, tagNamesE ts = .ok names
  | .nil, _ => ⟨[], rfl⟩
  | .cons t rest, h => by
    simp only [tagsOkA, Bool.and_eq_true] at h
    obtain ⟨names, hnames⟩ := tagNamesE_ok rest h.2
    cases t with
    | map tm =>
      dsimp only [] at h
      cases hf : tm.find? "name" with
      | none => rw [hf] at h; simp at h
      | some v =>
        rw [hf] at h
        cases v with
        | map _ => simp at h
        | arr _ => simp at h
        | str s =>
          exact ⟨.str s :: names, by
            simp only [tagNamesE, hf, Bind.bind, Except.bind, hnames]⟩
        | int n =>
          exact ⟨.int n :: names, by
            simp only [tagNamesE, hf, Bind.bind, Except.bind, hnames]⟩
        | bool b =>
          exact ⟨.bool b :: names, by
            simp only [tagNamesE, hf, Bind.bind, Except.bind, hnames]⟩
        | null =>
          exact ⟨.null :: names, by
            simp only [tagNamesE, hf, Bind.bind, Except.bind, hnames]⟩
    | str s => simp [tagsOkA] at h
    | int n => simp [tagsOkA] at h
    | bool b => simp [tagsOkA] at h
    | null => simp [tagsOkA] at h
    | arr l => simp [tagsOkA] at h

/-- C8 as amended: merge completes without error on every pair of
documents whose `paths` and `components` sections are mappings and whose
target `tags` section, when present, is a sequence of mappings each
carrying a scalar `name`; malformed input (and also a malformed `tags`
section, which the claim omitted) is surfaced as an error, not recovered. -/
theorem C8_amended (t s : YMap)
    (hpt : isMapSection t "paths" = true) (hps : isMapSection s "paths" = true)
    (hct : isMapSection t "components" = true) (hcs : isMapSection s "components" = true)
    (htags : wfTagsSection t = true) :
    ∃ r, mergeE t s = .ok r := by
  clear hct hcs
  cases hf : t.find? "paths" with
  | none => unfold isMapSection at hpt; rw [hf] at hpt; simp at hpt
  | some vp =>
  cases vp with
  | map pm =>
    cases hfs : s.find? "paths" with
    | none => unfold isMapSection at hps; rw [hfs] at hps; simp at hps
    | some vs =>
    cases vs with
    | map sm =>
      have h1 : getPathsKeysE t = .ok pm.keys := by unfold getPathsKeysE; rw [hf]
      have h2 : compPathsE s = .ok sm := by unfold compPathsE; rw [hfs]
      obtain ⟨o, h3, htagso⟩ :
          ∃ o, insertStagedE t (stagePaths pm.keys sm) = .ok o ∧
            o.find? "tags" = t.find? "tags" := by
        cases hst : stagePaths pm.keys sm with
        | nil => exact ⟨t, rfl, rfl⟩
        | cons a b c =>
          refine ⟨t.update "paths" (.map (insertAllPaths pm (.cons a b c))), ?_, ?_⟩
          · unfold insertStagedE
            rw [hf]
          · rw [YMap.find?_update_ne _ _ _ _ (by decide)]
      obtain ⟨r, hr⟩ : ∃ r, tagsStepE o = .ok r := by
        unfold tagsStepE
        rw [htagso]
        cases hft : t.find? "tags" with
        | none => exact ⟨_, rfl⟩
        | some vt =>
          unfold wfTagsSection at htags
          rw [hft] at htags
          cases vt with
          | arr ts =>
            dsimp only [] at htags
            dsimp only []
            obtain ⟨names, hnames⟩ := tagNamesE_ok ts htags
            rw [hnames]
            simp only [Bind.bind, Except.bind]
            by_cases he :
                (curatedTags.filter fun tg => !(names.contains (.str tg.1))).isEmpty = true
            · rw [if_pos he]; exact ⟨_, rfl⟩
            · rw [if_neg he]; exact ⟨_, rfl⟩
          | str a => simp at htags
          | int a => simp at htags
          | bool a => simp at htags
          | null => simp at htags
          | map a => simp at htags
      refine ⟨r, ?_⟩
      unfold mergeE
      rw [h1, h2]
      simp only [Bind.bind, Except.bind]
      rw [h3]
      dsimp only []
      exact hr
    | str a => unfold isMapSection at hps; rw [hfs] at hps; simp at hps
    | int a => unfold isMapSection at hps; rw [hfs] at hps; simp at hps
    | bool a => unfold isMapSection at hps; rw [hfs] at hps; simp at hps
    | null => unfold isMapSection at hps; rw [hfs] at hps; simp at hps
    | arr a => unfold isMapSection at hps; rw [hfs] at hps; simp at hps
  | str a => unfold isMapSection at hpt; rw [hf] at hpt; simp at hpt
  | int a => unfold isMapSection at hpt; rw [hf] at hpt; simp at hpt
  | bool a => unfold isMapSection at hpt; rw [hf] at hpt; simp at hpt
  | null => unfold isMapSection at hpt; rw [hf] at hpt; simp at hpt
  | arr a => unfold isMapSection at hpt; rw [hf] at hpt; simp at hpt

def C8Wt : YMap :=
  .cons "paths" (.map .nil)
    (.cons "components" (.map .nil)
      (.cons "tags" (.arr (.cons (.map (.cons "name" (.str "orgs") .nil)) .nil)) .nil))

def C8Ws : YMap := .cons "paths" (.map (.cons "/api/x" (.str "X") .nil))
  (.cons "components" (.map .nil) .nil)

/-- Witness for C8 as amended, at a well-shaped pair of documents. -/
theorem C8_amended_witness : ∃ r, mergeE C8Wt C8Ws = .ok r :=
  C8_amended C8Wt C8Ws (by decide) (by decide) (by decide) (by decide) (by decide)

/-! ## Commutation toolkit for the fixup repairs -/

theorem YMap.update_self_val : ∀ (m : YMap) (k : String) (v : Yaml),
    m.find? k = some v → m.update k v = m
  | .nil, _, _, h => by simp [YMap.find?] at h
  | .cons k0 v0 rest, k, v, h => by
    by_cases hk0 : k0 = k
    · subst hk0
      have hv : v0 = v := by simpa [YMap.find?] using h
      simp [YMap.update, hv]
    · simp only [YMap.find?, hk0, if_false] at h
      simp [YMap.update, hk0, YMap.update_self_val rest k v h]

theorem YMap.update_update_ne : ∀ (m : YMap) (k k' : String) (v v' : Yaml), k ≠ k' →
    (m.update k v).update k' v' = (m.update k' v').update k v
  | .nil, _, _, _, _, _ => rfl
  | .cons k0 v0 rest, k, k', v, v', hk => by
    have hk' : k' ≠ k := fun h => hk h.symm
    by_cases hk0 : k0 = k
    · subst hk0
      simp [YMap.update, hk, hk']
    · by_cases hk0' : k0 = k'
      · subst hk0'
        simp [YMap.update, hk0, hk']
      · simp [YMap.update, hk0, hk0', YMap.update_update_ne rest k k' v v' hk]

theorem YMap.update_update_same : ∀ (m : YMap) (k : String) (v v' : Yaml),
    (m.update k v).update k v' = m.update k v'
  | .nil, _, _, _ => rfl
  | .cons k0 v0 rest, k, v, v' => by
    by_cases hk0 : k0 = k
    · subst hk0
      simp [YMap.update]
    · simp [YMap.update, hk0, YMap.update_update_same rest k v v']

theorem YMap.update_push_ne : ∀ (m : YMap) (k k' : String) (v v' : Yaml), k ≠ k' →
    (m.push k v).update k' v' = (m.update k' v').push k v
  | .nil, k, k', v, v', hk => by
    have hk' : k' ≠ k := fun h => hk h.symm
    simp [YMap.push, YMap.update, hk, hk']
  | .cons k0 v0 rest, k, k', v, v', hk => by
    by_cases hk0 : k0 = k'
    · subst hk0
      simp [YMap.push, YMap.update]
    · simp [YMap.push, YMap.update, hk0, YMap.update_push_ne rest k k' v v' hk]

theorem YMap.find?_filterKeys : ∀ (m : YMap) (P : String → Bool) (k : String), P k = true →
    (m.filterKeys P).find? k = m.find? k
  | .nil, _, _, _ => rfl
  | .cons k0 v0 rest, P, k, hP => by
    by_cases hk0 : k0 = k
    · subst hk0
      simp [YMap.filterKeys, hP, YMap.find?]
    · cases hP0 : P k0 with
      | false => simp [YMap.filterKeys, hP0, YMap.find?, hk0,
          YMap.find?_filterKeys rest P k hP]
      | true => simp [YMap.filterKeys, hP0, YMap.find?, hk0,
          YMap.find?_filterKeys rest P k hP]

theorem YMap.update_filterKeys : ∀ (m : YMap) (P : String → Bool) (k : String) (v : Yaml),
    P k = true → (m.update k v).filterKeys P = (m.filterKeys P).update k v
  | .nil, _, _, _, _ => rfl
  | .cons k0 v0 rest, P, k, v, hP => by
    by_cases hk0 : k0 = k
    · subst hk0
      simp [YMap.update, YMap.filterKeys, hP]
    · cases hP0 : P k0 with
      | false => simp [YMap.update, YMap.filterKeys, hP0, hk0,
          YMap.update_filterKeys rest P k v hP]
      | true => simp [YMap.update, YMap.filterKeys, hP0, hk0,
          YMap.update_filterKeys rest P k v hP]

/-- A repair that reads one key of a mapping and conditionally replaces its
value in place (the common shape of the targeted fixups). -/
def keyedFix (k : String) (g : Yaml → Option Yaml) (m : YMap) : YMap :=
  match m.find? k with
  | some v =>
    match g v with
    | some v' => m.update k v'
    | none => m
  | none => m

theorem keyedFix_of_none {k : String} {g : Yaml → Option Yaml} {m : YMap}
    (h : m.find? k = none) : keyedFix k g m = m := by
  unfold keyedFix
  rw [h]

theorem keyedFix_of_gnone {k : String} {g : Yaml → Option Yaml} {m : YMap} {v : Yaml}
    (h : m.find? k = some v) (hg : g v = none) : keyedFix k g m = m := by
  unfold keyedFix
  rw [h]
  dsimp only []
  rw [hg]

theorem keyedFix_of_gsome {k : String} {g : Yaml → Option Yaml} {m : YMap} {v v' : Yaml}
    (h : m.find? k = some v) (hg : g v = some v') : keyedFix k g m = m.update k v' := by
  unfold keyedFix
  rw [h]
  dsimp only []
  rw [hg]

theorem keyedFix_find?_ne (k : String) (g : Yaml → Option Yaml) (m : YMap) (k' : String)
    (hk : k ≠ k') : (keyedFix k g m).find? k' = m.find? k' := by
  cases hm : m.find? k with
  | none => rw [keyedFix_of_none hm]
  | some v =>
    cases hg : g v with
    | none => rw [keyedFix_of_gnone hm hg]
    | some w => rw [keyedFix_of_gsome hm hg, YMap.find?_update_ne m k k' w hk]

theorem keyedFix_comm (k k' : String) (g g' : Yaml → Option Yaml) (m : YMap) (hk : k ≠ k') :
    keyedFix k g (keyedFix k' g' m) = keyedFix k' g' (keyedFix k g m) := by
  have hk' : k' ≠ k := fun h => hk h.symm
  cases hm : m.find? k with
  | none =>
    have hL : (keyedFix k' g' m).find? k = none := by
      rw [keyedFix_find?_ne k' g' m k hk', hm]
    rw [keyedFix_of_none hL, keyedFix_of_none hm]
  | some v =>
    have hL : (keyedFix k' g' m).find? k = some v := by
      rw [keyedFix_find?_ne k' g' m k hk', hm]
    cases hg : g v with
    | none => rw [keyedFix_of_gnone hL hg, keyedFix_of_gnone hm hg]
    | some v' =>
      rw [keyedFix_of_gsome hL hg, keyedFix_of_gsome hm hg]
      cases hm' : m.find? k' with
      | none =>
        have hR : (m.update k v').find? k' = none := by
          rw [YMap.find?_update_ne m k k' v' hk, hm']
        rw [keyedFix_of_none hm', keyedFix_of_none hR]
      | some w =>
        have hR : (m.update k v').find? k' = some w := by
          rw [YMap.find?_update_ne m k k' v' hk, hm']
        cases hg' : g' w with
        | none => rw [keyedFix_of_gnone hm' hg', keyedFix_of_gnone hR hg']
        | some w' =>
          rw [keyedFix_of_gsome hm' hg', keyedFix_of_gsome hR hg',
            YMap.update_update_ne m k' k w' v' hk']

theorem keyedFix_push_ne (k : String) (g : Yaml → Option Yaml) (m : YMap) (k' : String)
    (v : Yaml) (hk : k' ≠ k) :
    keyedFix k g (m.push k' v) = (keyedFix k g m).push k' v := by
  cases hm : m.find? k with
  | none =>
    have hp : (m.push k' v).find? k = none := by rw [YMap.find?_push_ne m k' k v hk, hm]
    rw [keyedFix_of_none hp, keyedFix_of_none hm]
  | some w =>
    have hp : (m.push k' v).find? k = some w := by rw [YMap.find?_push_ne m k' k v hk, hm]
    cases hg : g w with
    | none => rw [keyedFix_of_gnone hp hg, keyedFix_of_gnone hm hg]
    | some w' =>
      rw [keyedFix_of_gsome hp hg, keyedFix_of_gsome hm hg]
      exact YMap.update_push_ne m k' k v w' hk

theorem keyedFix_filterKeys (k : String) (g : Yaml → Option Yaml) (m : YMap)
    (P : String → Bool) (hP : P k = true) :
    keyedFix k g (m.filterKeys P) = (keyedFix k g m).filterKeys P := by
  cases hm : m.find? k with
  | none =>
    have hf : (m.filterKeys P).find? k = none := by rw [YMap.find?_filterKeys m P k hP, hm]
    rw [keyedFix_of_none hf, keyedFix_of_none hm]
  | some w =>
    have hf : (m.filterKeys P).find? k = some w := by rw [YMap.find?_filterKeys m P k hP, hm]
    cases hg : g w with
    | none => rw [keyedFix_of_gnone hf hg, keyedFix_of_gnone hm hg]
    | some w' =>
      rw [keyedFix_of_gsome hf hg, keyedFix_of_gsome hm hg]
      exact (YMap.update_filterKeys m P k w' hP).symm

/-! ## keyedFix representations of the targeted fixups -/

/-- The value transformer of Fix 1 (fires on a non-empty sequence headed by a
mapping). -/
def gServer : Yaml → Option Yaml
  | .arr (.cons (.map sm) rest) =>
    some (.arr (.cons (.map ((sm.insert "url" (.str serverUrl)).insert "description" (.str serverDesc))) rest))
  | _ => none

/-- The path-entry transformer shared by Fixes 2 and 6: insert a field into
the `post` operation's mapping. -/
def gPost (fk : String) (fv : Yaml) : Yaml → Option Yaml
  | .map em =>
    match em.find? "post" with
    | some (.map om) => some (.map (em.update "post" (.map (om.insert fk fv))))
    | _ => none
  | _ => none

/-- The paths-section transformer of Fixes 2 and 6: apply `gPost` to the
entry at a fixed path key. -/
def gPaths (pk fk : String) (fv : Yaml) : Yaml → Option Yaml
  | .map pm =>
    match pm.find? pk with
    | some e =>
      match gPost fk fv e with
      | some e' => some (.map (pm.update pk e'))
      | none => none
    | none => none
  | _ => none

/-- The paths-section transformer of Fix 3: drop the `/scim/` keys. -/
def gScimP : Yaml → Option Yaml
  | .map pm => some (.map (pm.filterKeys (fun k => !(strStarts "/scim/" k))))
  | _ => none

/-- The tags-section transformer of Fix 4: drop the `scim` tag. -/
def gScimT : Yaml → Option Yaml
  | .arr ts => some (.arr (ts.filter scimTagKeep))
  | _ => none

/-- Total application of a conditional transformer. -/
def appY (g : Yaml → Option Yaml) (v : Yaml) : Yaml := (g v).getD v

theorem fixServer_eq (d : YMap) : fixServer d = keyedFix "servers" gServer d := by
  unfold fixServer keyedFix
  cases hm : d.find? "servers" with
  | none => rfl
  | some v =>
    cases v
    case arr l =>
      cases l
      case cons s0 rest => cases s0 <;> rfl
      all_goals rfl
    all_goals rfl

theorem fixResponses_eq (d : YMap) :
    fixResponses d = keyedFix "paths" (gPaths statesRemoveKey "responses" responsesFixValue) d := by
  unfold fixResponses keyedFix gPaths gPost
  cases hm : d.find? "paths" with
  | none => rfl
  | some v =>
    cases v
    case map pm =>
      dsimp only []
      cases hp : pm.find? statesRemoveKey with
      | none => rfl
      | some e =>
        cases e
        case map em =>
          dsimp only []
          cases ho : em.find? "post" with
          | none => rfl
          | some o => cases o <;> rfl
        all_goals rfl
    all_goals rfl

theorem fixOpId_eq (d : YMap) :
    fixOpId d = keyedFix "paths" (gPaths "/docs" "operationId" (.str opIdValue)) d := by
  unfold fixOpId keyedFix gPaths gPost
  cases hm : d.find? "paths" with
  | none => rfl
  | some v =>
    cases v
    case map pm =>
      dsimp only []
      cases hp : pm.find? "/docs" with
      | none => rfl
      | some e =>
        cases e
        case map em =>
          dsimp only []
          cases ho : em.find? "post" with
          | none => rfl
          | some o => cases o <;> rfl
        all_goals rfl
    all_goals rfl

theorem fixScim_eq (d : YMap) :
    fixScim d = keyedFix "tags" gScimT (keyedFix "paths" gScimP d) := by
  unfold fixScim keyedFix gScimP gScimT
  cases hp : d.find? "paths" with
  | none =>
    dsimp only []
    cases ht : d.find? "tags" with
    | none => rfl
    | some v => cases v <;> rfl
  | some v =>
    cases v
    case map pm =>
      dsimp only []
      cases ht : (d.update "paths" (.map (pm.filterKeys (fun k => !(strStarts "/scim/" k))))).find? "tags" with
      | none => rfl
      | some w => cases w <;> rfl
    all_goals
      dsimp only []
      cases ht : d.find? "tags" with
      | none => rfl
      | some w => cases w <;> rfl

theorem keyedFix_eq_update {k : String} {g : Yaml → Option Yaml} {m : YMap} {v : Yaml}
    (hm : m.find? k = some v) : keyedFix k g m = m.update k (appY g v) := by
  cases hg : g v with
  | some w =>
    rw [keyedFix_of_gsome hm hg]
    unfold appY
    rw [hg]
    rfl
  | none =>
    rw [keyedFix_of_gnone hm hg]
    unfold appY
    rw [hg]
    exact (YMap.update_self_val m k v hm).symm

theorem keyedFix_comm_same (k : String) (g1 g2 : Yaml → Option Yaml) (m : YMap)
    (h : ∀ v, appY g1 (appY g2 v) = appY g2 (appY g1 v)) :
    keyedFix k g1 (keyedFix k g2 m) = keyedFix k g2 (keyedFix k g1 m) := by
  cases hm : m.find? k with
  | none =>
    rw [@keyedFix_of_none k g2 m hm, @keyedFix_of_none k g1 m hm, @keyedFix_of_none k g2 m hm]
  | some v =>
    have hk : m.hasKey k = true := by simp [YMap.hasKey, hm]
    have h2 : keyedFix k g2 m = m.update k (appY g2 v) := keyedFix_eq_update hm
    have h1 : keyedFix k g1 m = m.update k (appY g1 v) := keyedFix_eq_update hm
    have f2 : (m.update k (appY g2 v)).find? k = some (appY g2 v) :=
      YMap.find?_update_self m k _ hk
    have f1 : (m.update k (appY g1 v)).find? k = some (appY g1 v) :=
      YMap.find?_update_self m k _ hk
    rw [h2, h1, keyedFix_eq_update f2, keyedFix_eq_update f1,
      YMap.update_update_same, YMap.update_update_same, h v]

theorem appY_gPaths_map (pk fk : String) (fv : Yaml) (pm : YMap) :
    appY (gPaths pk fk fv) (.map pm) = .map (keyedFix pk (gPost fk fv) pm) := by
  unfold appY gPaths keyedFix
  dsimp only []
  cases hp : pm.find? pk with
  | none => rfl
  | some e =>
    dsimp only []
    cases hg : gPost fk fv e with
    | none => rfl
    | some w => rfl

theorem appY_gScimP_map (pm : YMap) :
    appY gScimP (.map pm) = .map (pm.filterKeys (fun k => !(strStarts "/scim/" k))) := rfl

theorem appY_gScimT_arr (ts : YArr) : appY gScimT (.arr ts) = .arr (ts.filter scimTagKeep) := rfl

theorem appY_paths_comm (pk1 fk1 : String) (fv1 : Yaml) (pk2 fk2 : String) (fv2 : Yaml)
    (hpk : pk1 ≠ pk2) :
    ∀ v, appY (gPaths pk1 fk1 fv1) (appY (gPaths pk2 fk2 fv2) v)
       = appY (gPaths pk2 fk2 fv2) (appY (gPaths pk1 fk1 fv1) v)
  | .map pm => by
    rw [appY_gPaths_map pk2 fk2 fv2 pm, appY_gPaths_map pk1 fk1 fv1 pm,
      appY_gPaths_map pk1 fk1 fv1 (keyedFix pk2 (gPost fk2 fv2) pm),
      appY_gPaths_map pk2 fk2 fv2 (keyedFix pk1 (gPost fk1 fv1) pm)]
    exact congrArg Yaml.map (keyedFix_comm pk1 pk2 (gPost fk1 fv1) (gPost fk2 fv2) pm hpk)
  | .str _ => rfl
  | .int _ => rfl
  | .bool _ => rfl
  | .null => rfl
  | .arr _ => rfl

theorem appY_scimP_paths_comm (pk fk : String) (fv : Yaml)
    (hpk : (!(strStarts "/scim/" pk)) = true) :
    ∀ v, appY gScimP (appY (gPaths pk fk fv) v) = appY (gPaths pk fk fv) (appY gScimP v)
  | .map pm => by
    rw [appY_gPaths_map pk fk fv pm,
      appY_gScimP_map (keyedFix pk (gPost fk fv) pm), appY_gScimP_map pm,
      appY_gPaths_map pk fk fv (pm.filterKeys (fun k => !(strStarts "/scim/" k)))]
    exact congrArg Yaml.map
      (keyedFix_filterKeys pk (gPost fk fv) pm (fun k => !(strStarts "/scim/" k)) hpk).symm
  | .str _ => rfl
  | .int _ => rfl
  | .bool _ => rfl
  | .null => rfl
  | .arr _ => rfl

theorem fixupCommSR (d : YMap) : fixServer (fixResponses d) = fixResponses (fixServer d) := by
  simp only [fixServer_eq, fixResponses_eq]
  exact keyedFix_comm "servers" "paths" gServer
    (gPaths statesRemoveKey "responses" responsesFixValue) d (by decide)

theorem fixupCommSC (d : YMap) : fixServer (fixScim d) = fixScim (fixServer d) := by
  simp only [fixServer_eq, fixScim_eq]
  rw [keyedFix_comm "servers" "tags" gServer gScimT (keyedFix "paths" gScimP d) (by decide),
    keyedFix_comm "servers" "paths" gServer gScimP d (by decide)]

theorem fixupCommSO (d : YMap) : fixServer (fixOpId d) = fixOpId (fixServer d) := by
  simp only [fixServer_eq, fixOpId_eq]
  exact keyedFix_comm "servers" "paths" gServer
    (gPaths "/docs" "operationId" (.str opIdValue)) d (by decide)

theorem fixupCommRC (d : YMap) : fixResponses (fixScim d) = fixScim (fixResponses d) := by
  simp only [fixResponses_eq, fixScim_eq]
  rw [keyedFix_comm "paths" "tags" (gPaths statesRemoveKey "responses" responsesFixValue)
    gScimT (keyedFix "paths" gScimP d) (by decide),
    keyedFix_comm_same "paths" (gPaths statesRemoveKey "responses" responsesFixValue) gScimP d
      (fun v => (appY_scimP_paths_comm statesRemoveKey "responses" responsesFixValue
        (by decide) v).symm)]

theorem fixupCommRO (d : YMap) : fixResponses (fixOpId d) = fixOpId (fixResponses d) := by
  simp only [fixResponses_eq, fixOpId_eq]
  exact keyedFix_comm_same "paths" (gPaths statesRemoveKey "responses" responsesFixValue)
    (gPaths "/docs" "operationId" (.str opIdValue)) d
    (appY_paths_comm statesRemoveKey "responses" responsesFixValue
      "/docs" "operationId" (.str opIdValue) (by decide))

theorem fixupCommCO (d : YMap) : fixScim (fixOpId d) = fixOpId (fixScim d) := by
  simp only [fixOpId_eq, fixScim_eq]
  rw [keyedFix_comm "paths" "tags" (gPaths "/docs" "operationId" (.str opIdValue))
    gScimT (keyedFix "paths" gScimP d) (by decide),
    keyedFix_comm_same "paths" (gPaths "/docs" "operationId" (.str opIdValue)) gScimP d
      (fun v => (appY_scimP_paths_comm "/docs" "operationId" (.str opIdValue)
        (by decide) v).symm)]

/-! ## The scim removal commutes with the enum repair -/

theorem YMap.push_filterKeys : ∀ (m : YMap) (k : String) (v : Yaml) (P : String → Bool),
    P k = true → (m.push k v).filterKeys P = (m.filterKeys P).push k v
  | .nil, k, v, P, hP => by simp [YMap.push, YMap.filterKeys, hP]
  | .cons k0 v0 rest, k, v, P, hP => by
    cases hP0 : P k0 with
    | false => simp [YMap.push, YMap.filterKeys, hP0, YMap.push_filterKeys rest k v P hP]
    | true => simp [YMap.push, YMap.filterKeys, hP0, YMap.push_filterKeys rest k v P hP]

/-- The value a firing walk leaves at the first `enum` binding. -/
def enumRepairVal : Yaml → Yaml
  | .arr l => .arr (if containsNullA l then filterNullA (fixNEArr l) else fixNEArr l)
  | w => fixNE w

theorem fixNEWalk_enum_cons (v : Yaml) (rest : YMap) :
    fixNEWalk true (.cons "enum" v rest) = .cons "enum" (enumRepairVal v) (fixNEWalk false rest) := by
  cases v with
  | arr l => rw [fixNEWalk_enum_arr]; rfl
  | str s => rw [fixNEWalk_enum_nonarr _ _ (fun l h => Yaml.noConfusion h)]; rfl
  | int n => rw [fixNEWalk_enum_nonarr _ _ (fun l h => Yaml.noConfusion h)]; rfl
  | bool b => rw [fixNEWalk_enum_nonarr _ _ (fun l h => Yaml.noConfusion h)]; rfl
  | null => rw [fixNEWalk_enum_nonarr _ _ (fun l h => Yaml.noConfusion h)]; rfl
  | map m => rw [fixNEWalk_enum_nonarr _ _ (fun l h => Yaml.noConfusion h)]; rfl

theorem fixNEWalk_update : ∀ (looking : Bool) (m : YMap) (k : String) (v : Yaml),
    k ≠ "enum" → fixNEWalk looking (m.update k v) = (fixNEWalk looking m).update k (fixNE v)
  | _, .nil, _, _, _ => rfl
  | looking, .cons k0 v0 rest, k, v, hk => by
    by_cases hk0 : k0 = k
    · have hg0 : ¬(looking = true ∧ k0 = "enum") := fun h => hk (hk0.symm.trans h.2)
      simp only [YMap.update, if_pos hk0]
      rw [fixNEWalk_cons_nofire looking k v rest (fun h => hk h.2),
        fixNEWalk_cons_nofire looking k0 v0 rest hg0]
      simp [YMap.update, hk0]
    · simp only [YMap.update, if_neg hk0]
      by_cases hg : looking = true ∧ k0 = "enum"
      · obtain ⟨hl, he⟩ := hg
        subst hl
        subst he
        rw [fixNEWalk_enum_cons v0 (rest.update k v), fixNEWalk_enum_cons v0 rest,
          fixNEWalk_update false rest k v hk]
        simp [YMap.update, hk0]
      · rw [fixNEWalk_cons_nofire looking k0 v0 (rest.update k v) hg,
          fixNEWalk_cons_nofire looking k0 v0 rest hg,
          fixNEWalk_update looking rest k v hk]
        simp [YMap.update, hk0]

theorem fixNEWalk_filterKeys : ∀ (looking : Bool) (m : YMap) (P : String → Bool),
    P "enum" = true → fixNEWalk looking (m.filterKeys P) = (fixNEWalk looking m).filterKeys P
  | _, .nil, _, _ => rfl
  | looking, .cons k0 v0 rest, P, hP => by
    cases hP0 : P k0 with
    | false =>
      have hk0 : ¬(k0 = "enum") := fun h => by rw [h, hP] at hP0; exact Bool.noConfusion hP0
      have hg : ¬(looking = true ∧ k0 = "enum") := fun h => hk0 h.2
      rw [show (YMap.cons k0 v0 rest).filterKeys P = rest.filterKeys P by
        simp [YMap.filterKeys, hP0]]
      rw [fixNEWalk_cons_nofire looking k0 v0 rest hg,
        fixNEWalk_filterKeys looking rest P hP]
      simp [YMap.filterKeys, hP0]
    | true =>
      rw [show (YMap.cons k0 v0 rest).filterKeys P = .cons k0 v0 (rest.filterKeys P) by
        simp [YMap.filterKeys, hP0]]
      by_cases hg : looking = true ∧ k0 = "enum"
      · obtain ⟨hl, he⟩ := hg
        subst hl
        subst he
        rw [fixNEWalk_enum_cons v0 (rest.filterKeys P), fixNEWalk_enum_cons v0 rest,
          fixNEWalk_filterKeys false rest P hP]
        simp [YMap.filterKeys, hP0]
      · rw [fixNEWalk_cons_nofire looking k0 v0 (rest.filterKeys P) hg,
          fixNEWalk_cons_nofire looking k0 v0 rest hg,
          fixNEWalk_filterKeys looking rest P hP]
        simp [YMap.filterKeys, hP0]

theorem fixNEArr_filter (p : Yaml → Bool) (hp : ∀ y, p (fixNE y) = p y) :
    ∀ l : YArr, fixNEArr (YArr.filter p l) = YArr.filter p (fixNEArr l)
  | .nil => rfl
  | .cons v rest => by
    cases hv : p v with
    | true =>
      rw [show YArr.filter p (.cons v rest) = .cons v (YArr.filter p rest) by
        simp [YArr.filter, hv]]
      rw [show fixNEArr (YArr.cons v rest) = .cons (fixNE v) (fixNEArr rest) from rfl,
        show fixNEArr (YArr.cons v (YArr.filter p rest)) =
          .cons (fixNE v) (fixNEArr (YArr.filter p rest)) from rfl,
        fixNEArr_filter p hp rest]
      simp [YArr.filter, hp v, hv]
    | false =>
      rw [show YArr.filter p (.cons v rest) = YArr.filter p rest by simp [YArr.filter, hv]]
      rw [show fixNEArr (YArr.cons v rest) = .cons (fixNE v) (fixNEArr rest) from rfl,
        fixNEArr_filter p hp rest]
      simp [YArr.filter, hp v, hv]

theorem fixNE_str_iff : ∀ (y : Yaml) (s : String), fixNE y = .str s ↔ y = .str s
  | .str _, _ => by simp [fixNE]
  | .int _, _ => by simp [fixNE]
  | .bool _, _ => by simp [fixNE]
  | .null, _ => by simp [fixNE]
  | .map _, _ => by simp [fixNE]
  | .arr _, _ => by simp [fixNE]

theorem scimTagKeep_fixNE : ∀ t : Yaml, scimTagKeep (fixNE t) = scimTagKeep t
  | .str _ => rfl
  | .int _ => rfl
  | .bool _ => rfl
  | .null => rfl
  | .arr l => rfl
  | .map tm => by
    rw [fixNE_map_eq]
    show (!(decide ((fixEnums tm).find? "name" = some (Yaml.str "scim")))) =
      (!(decide (tm.find? "name" = some (Yaml.str "scim"))))
    have hname : (fixEnums tm).find? "name" = (tm.find? "name").map fixNE := by
      rw [fixEnums_eq]
      by_cases hc : (enumFires tm && !tm.hasKey "nullable" : Bool) = true
      · rw [if_pos hc, YMap.find?_push_ne _ _ _ _ (by decide),
          fixNEWalk_find?_other true tm "name" (by decide)]
      · rw [if_neg hc, fixNEWalk_find?_other true tm "name" (by decide)]
    rw [hname]
    cases hn : tm.find? "name" with
    | none => rfl
    | some w =>
      by_cases hw : w = Yaml.str "scim"
      · subst hw
        rfl
      · have hw' : ¬(fixNE w = Yaml.str "scim") := fun h => hw ((fixNE_str_iff w "scim").mp h)
        simp [hw, hw']

theorem fixEnums_filterKeys (pm : YMap) (P : String → Bool)
    (hPe : P "enum" = true) (hPn : P "nullable" = true) :
    fixEnums (pm.filterKeys P) = (fixEnums pm).filterKeys P := by
  rw [fixEnums_eq, fixEnums_eq]
  have he : enumFires (pm.filterKeys P) = enumFires pm := by
    unfold enumFires
    rw [YMap.find?_filterKeys pm P "enum" hPe]
  have hn : (pm.filterKeys P).hasKey "nullable" = pm.hasKey "nullable" := by
    unfold YMap.hasKey
    rw [YMap.find?_filterKeys pm P "nullable" hPn]
  rw [he, hn]
  by_cases hc : (enumFires pm && !pm.hasKey "nullable" : Bool) = true
  · rw [if_pos hc, if_pos hc, fixNEWalk_filterKeys true pm P hPe]
    exact (YMap.push_filterKeys (fixNEWalk true pm) "nullable" (.bool true) P hPn).symm
  · rw [if_neg hc, if_neg hc]
    exact fixNEWalk_filterKeys true pm P hPe

theorem fixNEWalk_keyedFix_gScimP (looking : Bool) (d : YMap) :
    fixNEWalk looking (keyedFix "paths" gScimP d) = keyedFix "paths" gScimP (fixNEWalk looking d) := by
  cases hm : d.find? "paths" with
  | none =>
    rw [@keyedFix_of_none "paths" gScimP d hm]
    have h2 : (fixNEWalk looking d).find? "paths" = none := by
      rw [fixNEWalk_find?_other looking d "paths" (by decide), hm]
      rfl
    rw [@keyedFix_of_none "paths" gScimP (fixNEWalk looking d) h2]
  | some v =>
    have h2 : (fixNEWalk looking d).find? "paths" = some (fixNE v) := by
      rw [fixNEWalk_find?_other looking d "paths" (by decide), hm]
      rfl
    cases v with
    | map pm =>
      rw [@keyedFix_of_gsome "paths" gScimP d (.map pm)
        (.map (pm.filterKeys (fun k => !(strStarts "/scim/" k)))) hm rfl]
      rw [fixNEWalk_update looking d "paths" (.map (pm.filterKeys (fun k => !(strStarts "/scim/" k)))) (by decide)]
      rw [fixNE_map_eq, fixEnums_filterKeys pm (fun k => !(strStarts "/scim/" k)) (by decide) (by decide)]
      have h2' : (fixNEWalk looking d).find? "paths" = some (.map (fixEnums pm)) := by
        rw [h2, fixNE_map_eq]
      rw [@keyedFix_of_gsome "paths" gScimP (fixNEWalk looking d) (.map (fixEnums pm))
        (.map ((fixEnums pm).filterKeys (fun k => !(strStarts "/scim/" k)))) h2' rfl]
    | str s =>
      rw [@keyedFix_of_gnone "paths" gScimP d (.str s) hm rfl,
        @keyedFix_of_gnone "paths" gScimP (fixNEWalk looking d) (fixNE (.str s)) h2 rfl]
    | int n =>
      rw [@keyedFix_of_gnone "paths" gScimP d (.int n) hm rfl,
        @keyedFix_of_gnone "paths" gScimP (fixNEWalk looking d) (fixNE (.int n)) h2 rfl]
    | bool b =>
      rw [@keyedFix_of_gnone "paths" gScimP d (.bool b) hm rfl,
        @keyedFix_of_gnone "paths" gScimP (fixNEWalk looking d) (fixNE (.bool b)) h2 rfl]
    | null =>
      rw [@keyedFix_of_gnone "paths" gScimP d .null hm rfl,
        @keyedFix_of_gnone "paths" gScimP (fixNEWalk looking d) (fixNE .null) h2 rfl]
    | arr l =>
      rw [@keyedFix_of_gnone "paths" gScimP d (.arr l) hm rfl,
        @keyedFix_of_gnone "paths" gScimP (fixNEWalk looking d) (fixNE (.arr l)) h2 rfl]

theorem fixNEWalk_keyedFix_gScimT (looking : Bool) (d : YMap) :
    fixNEWalk looking (keyedFix "tags" gScimT d) = keyedFix "tags" gScimT (fixNEWalk looking d) := by
  cases hm : d.find? "tags" with
  | none =>
    rw [@keyedFix_of_none "tags" gScimT d hm]
    have h2 : (fixNEWalk looking d).find? "tags" = none := by
      rw [fixNEWalk_find?_other looking d "tags" (by decide), hm]
      rfl
    rw [@keyedFix_of_none "tags" gScimT (fixNEWalk looking d) h2]
  | some v =>
    have h2 : (fixNEWalk looking d).find? "tags" = some (fixNE v) := by
      rw [fixNEWalk_find?_other looking d "tags" (by decide), hm]
      rfl
    cases v with
    | arr ts =>
      rw [@keyedFix_of_gsome "tags" gScimT d (.arr ts) (.arr (ts.filter scimTagKeep)) hm rfl]
      rw [fixNEWalk_update looking d "tags" (.arr (ts.filter scimTagKeep)) (by decide)]
      rw [show fixNE (.arr (ts.filter scimTagKeep)) = .arr (fixNEArr (ts.filter scimTagKeep)) from rfl,
        fixNEArr_filter scimTagKeep scimTagKeep_fixNE ts]
      have h2' : (fixNEWalk looking d).find? "tags" = some (.arr (fixNEArr ts)) := h2
      rw [@keyedFix_of_gsome "tags" gScimT (fixNEWalk looking d) (.arr (fixNEArr ts))
        (.arr ((fixNEArr ts).filter scimTagKeep)) h2' rfl]
    | str s =>
      rw [@keyedFix_of_gnone "tags" gScimT d (.str s) hm rfl,
        @keyedFix_of_gnone "tags" gScimT (fixNEWalk looking d) (fixNE (.str s)) h2 rfl]
    | int n =>
      rw [@keyedFix_of_gnone "tags" gScimT d (.int n) hm rfl,
        @keyedFix_of_gnone "tags" gScimT (fixNEWalk looking d) (fixNE (.int n)) h2 rfl]
    | bool b =>
      rw [@keyedFix_of_gnone "tags" gScimT d (.bool b) hm rfl,
        @keyedFix_of_gnone "tags" gScimT (fixNEWalk looking d) (fixNE (.bool b)) h2 rfl]
    | null =>
      rw [@keyedFix_of_gnone "tags" gScimT d .null hm rfl,
        @keyedFix_of_gnone "tags" gScimT (fixNEWalk looking d) (fixNE .null) h2 rfl]
    | map pm =>
      rw [@keyedFix_of_gnone "tags" gScimT d (.map pm) hm rfl,
        @keyedFix_of_gnone "tags" gScimT (fixNEWalk looking d) (fixNE (.map pm)) h2
          (by rw [fixNE_map_eq]; rfl)]

theorem fixEnums_keyedFix_gScimP (d : YMap) :
    fixEnums (keyedFix "paths" gScimP d) = keyedFix "paths" gScimP (fixEnums d) := by
  rw [fixEnums_eq, fixEnums_eq]
  have he : enumFires (keyedFix "paths" gScimP d) = enumFires d := by
    unfold enumFires
    rw [keyedFix_find?_ne "paths" gScimP d "enum" (by decide)]
  have hn : (keyedFix "paths" gScimP d).hasKey "nullable" = d.hasKey "nullable" := by
    unfold YMap.hasKey
    rw [keyedFix_find?_ne "paths" gScimP d "nullable" (by decide)]
  rw [he, hn]
  by_cases hc : (enumFires d && !d.hasKey "nullable" : Bool) = true
  · rw [if_pos hc, if_pos hc, fixNEWalk_keyedFix_gScimP true d,
      keyedFix_push_ne "paths" gScimP (fixNEWalk true d) "nullable" (.bool true) (by decide)]
  · rw [if_neg hc, if_neg hc, fixNEWalk_keyedFix_gScimP true d]

theorem fixEnums_keyedFix_gScimT (d : YMap) :
    fixEnums (keyedFix "tags" gScimT d) = keyedFix "tags" gScimT (fixEnums d) := by
  rw [fixEnums_eq, fixEnums_eq]
  have he : enumFires (keyedFix "tags" gScimT d) = enumFires d := by
    unfold enumFires
    rw [keyedFix_find?_ne "tags" gScimT d "enum" (by decide)]
  have hn : (keyedFix "tags" gScimT d).hasKey "nullable" = d.hasKey "nullable" := by
    unfold YMap.hasKey
    rw [keyedFix_find?_ne "tags" gScimT d "nullable" (by decide)]
  rw [he, hn]
  by_cases hc : (enumFires d && !d.hasKey "nullable" : Bool) = true
  · rw [if_pos hc, if_pos hc, fixNEWalk_keyedFix_gScimT true d,
      keyedFix_push_ne "tags" gScimT (fixNEWalk true d) "nullable" (.bool true) (by decide)]
  · rw [if_neg hc, if_neg hc, fixNEWalk_keyedFix_gScimT true d]

theorem fixupCommCE (d : YMap) : fixScim (fixEnums d) = fixEnums (fixScim d) := by
  rw [fixScim_eq, fixScim_eq, fixEnums_keyedFix_gScimT (keyedFix "paths" gScimP d),
    fixEnums_keyedFix_gScimP d]

/-- A document whose `/docs` post operation carries a null-containing enum
and no `operationId`: both the enum repair and the operationId repair fire
on the same operation mapping. -/
def C7doc : YMap :=
  .cons "paths" (.map (.cons "/docs" (.map (.cons "post"
    (.map (.cons "enum" (.arr (.cons .null .nil)) .nil)) .nil)) .nil)) .nil

/-- Claim C7 is refuted at a concrete document: the enum/nullable repair and
the duplicate-operationId repair do not commute, because each appends its new
key (`nullable: true`, resp. `operationId`) at the end of the `/docs` post
operation mapping, so the two orders leave those keys in different positions. -/
theorem C7_counterexample :
    fixOpId (fixEnums C7doc) ≠ fixEnums (fixOpId C7doc) := by decide

/-- Claim C7, amended: every pair among the server repair, the targeted
response repair, the scim endpoint-and-tag removal, and the operationId
repair commutes on every document, and the scim removal also commutes with
the enum/nullable repair; only the pairs joining the enum repair to the
server, response, or operationId repair can disagree (they differ exactly in
key-insertion order when both fire on one mapping). -/
theorem C7_amended : ∀ d : YMap,
    fixServer (fixResponses d) = fixResponses (fixServer d) ∧
    fixServer (fixScim d) = fixScim (fixServer d) ∧
    fixServer (fixOpId d) = fixOpId (fixServer d) ∧
    fixResponses (fixScim d) = fixScim (fixResponses d) ∧
    fixResponses (fixOpId d) = fixOpId (fixResponses d) ∧
    fixScim (fixOpId d) = fixOpId (fixScim d) ∧
    fixScim (fixEnums d) = fixEnums (fixScim d) :=
  fun d =>
    ⟨fixupCommSR d, fixupCommSC d, fixupCommSO d, fixupCommRC d,
      fixupCommRO d, fixupCommCO d, fixupCommCE d⟩

/-! ## Claim C1: referenced definitions of staged paths are copied -/

/-- Well-shaped components sections for one category: `components`, when
present, is a mapping, and its `cat` entry, when present, is a mapping (the
shape the spec's Definition tables assume). -/
def wfComps (d : YMap) (cat : String) : Bool :=
  match d.find? "components" with
  | none => true
  | some (.map cm) =>
    match cm.find? cat with
    | none => true
    | some (.map _) => true
    | some _ => false
  | some _ => false

theorem catLookup_congr (d d' : YMap) (cat n : String)
    (h : d.find? "components" = d'.find? "components") :
    catLookup d cat n = catLookup d' cat n := by
  unfold catLookup
  rw [h]

theorem wfComps_congr (d d' : YMap) (cat : String)
    (h : d.find? "components" = d'.find? "components") :
    wfComps d cat = wfComps d' cat := by
  unfold wfComps
  rw [h]

theorem memberInCompE_wf (d : YMap) (cat n : String) (hw : wfComps d cat = true) :
    memberInCompE d cat n = .ok ((catLookup d cat n).isSome) := by
  unfold wfComps at hw
  unfold memberInCompE catLookup
  cases hd : d.find? "components" with
  | none => rfl
  | some c =>
    rw [hd] at hw
    cases c with
    | map cm =>
      dsimp only []
      dsimp only [] at hw
      cases hc : cm.find? cat with
      | none => rfl
      | some cv =>
        rw [hc] at hw
        cases cv with
        | map catm => rfl
        | str sv => exact absurd hw (by dsimp only []; simp)
        | int nv => exact absurd hw (by dsimp only []; simp)
        | bool bv => exact absurd hw (by dsimp only []; simp)
        | null => exact absurd hw (by dsimp only []; simp)
        | arr lv => exact absurd hw (by dsimp only []; simp)
    | str sv => exact absurd hw (by dsimp only []; simp)
    | int nv => exact absurd hw (by dsimp only []; simp)
    | bool bv => exact absurd hw (by dsimp only []; simp)
    | null => exact absurd hw (by dsimp only []; simp)
    | arr lv => exact absurd hw (by dsimp only []; simp)

theorem fetchDefE_of_lookup (s : YMap) (cat n : String) (v : Yaml)
    (h : catLookup s cat n = some v) : fetchDefE s cat n = .ok v := by
  unfold catLookup at h
  unfold fetchDefE
  cases hd : s.find? "components" with
  | none => rw [hd] at h; exact absurd h (by simp)
  | some c =>
    rw [hd] at h
    cases c with
    | map cm =>
      dsimp only [] at h
      dsimp only []
      cases hc : cm.find? cat with
      | none => rw [hc] at h; exact absurd h (by simp)
      | some cv =>
        rw [hc] at h
        cases cv with
        | map catm => dsimp only [] at h; dsimp only []; rw [h]
        | str sv => exact absurd h (by simp)
        | int nv => exact absurd h (by simp)
        | bool bv => exact absurd h (by simp)
        | null => exact absurd h (by simp)
        | arr lv => exact absurd h (by simp)
    | str sv => exact absurd h (by simp)
    | int nv => exact absurd h (by simp)
    | bool bv => exact absurd h (by simp)
    | null => exact absurd h (by simp)
    | arr lv => exact absurd h (by simp)

/-- The successful effect of `copyIntoE` (the shape-mismatch arms return the
document unchanged; they are unreachable under `wfComps`). -/
def copyIntoPure (d : YMap) (cat n : String) (v : Yaml) : YMap :=
  match d.find? "components" with
  | none => d.push "components" (.map (.cons cat (.map (.cons n v .nil)) .nil))
  | some (.map cm) =>
    match cm.find? cat with
    | none => d.update "components" (.map (cm.push cat (.map (.cons n v .nil))))
    | some (.map catm) => d.update "components" (.map (cm.update cat (.map (catm.insert n v))))
    | some _ => d
  | some _ => d

/-- The successful effect of one `copyStepE` iteration. -/
def copyPure (s : YMap) (cat : String) (d : YMap) (n : String) : YMap :=
  if (catLookup d cat n).isSome then d
  else
    match catLookup s cat n with
    | some v => copyIntoPure d cat n v
    | none => d

theorem copyIntoE_wf (d : YMap) (cat n : String) (v : Yaml) (hw : wfComps d cat = true) :
    copyIntoE d cat n v = .ok (copyIntoPure d cat n v) := by
  unfold wfComps at hw
  unfold copyIntoE copyIntoPure
  cases hd : d.find? "components" with
  | none => rfl
  | some c =>
    rw [hd] at hw
    cases c with
    | map cm =>
      dsimp only []
      dsimp only [] at hw
      cases hc : cm.find? cat with
      | none => rfl
      | some cv =>
        rw [hc] at hw
        cases cv with
        | map catm => rfl
        | str sv => exact absurd hw (by dsimp only []; simp)
        | int nv => exact absurd hw (by dsimp only []; simp)
        | bool bv => exact absurd hw (by dsimp only []; simp)
        | null => exact absurd hw (by dsimp only []; simp)
        | arr lv => exact absurd hw (by dsimp only []; simp)
    | str sv => exact absurd hw (by dsimp only []; simp)
    | int nv => exact absurd hw (by dsimp only []; simp)
    | bool bv => exact absurd hw (by dsimp only []; simp)
    | null => exact absurd hw (by dsimp only []; simp)
    | arr lv => exact absurd hw (by dsimp only []; simp)

theorem copyStepE_wf (s : YMap) (cat : String) (d : YMap) (n : String)
    (hwd : wfComps d cat = true) (hws : wfComps s cat = true) :
    copyStepE s cat d n = .ok (copyPure s cat d n) := by
  unfold copyStepE copyPure
  rw [memberInCompE_wf d cat n hwd]
  simp only [Bind.bind, Except.bind]
  cases hdl : (catLookup d cat n).isSome with
  | true => simp
  | false =>
    simp only [Bool.false_eq_true, if_false]
    rw [memberInCompE_wf s cat n hws]
    cases hsl : catLookup s cat n with
    | none => simp
    | some v =>
      simp only [Option.isSome_some, if_pos]
      rw [fetchDefE_of_lookup s cat n v hsl]
      simp only [Bind.bind, Except.bind]
      exact copyIntoE_wf d cat n v hwd

theorem YMap.find?_push_self : ∀ (m : YMap) (k : String) (v : Yaml),
    m.find? k = none → (m.push k v).find? k = some v
  | .nil, k, v, _ => by simp [YMap.push, YMap.find?]
  | .cons k0 v0 rest, k, v, h => by
    simp only [YMap.find?] at h
    by_cases hk0 : k0 = k
    · simp [hk0] at h
    · simp only [hk0, if_false] at h
      simp [YMap.push, YMap.find?, hk0, YMap.find?_push_self rest k v h]

theorem cip_find?_ne (d : YMap) (cat n : String) (v : Yaml) (k : String)
    (hk : k ≠ "components") : (copyIntoPure d cat n v).find? k = d.find? k := by
  have hk' : "components" ≠ k := fun h => hk h.symm
  unfold copyIntoPure
  cases hd : d.find? "components" with
  | none => exact YMap.find?_push_ne d "components" k _ hk'
  | some c =>
    cases c
    case map cm =>
      dsimp only []
      cases hc : cm.find? cat with
      | none => exact YMap.find?_update_ne d "components" k _ hk'
      | some cv =>
        cases cv
        case map catm => exact YMap.find?_update_ne d "components" k _ hk'
        all_goals rfl
    all_goals rfl

theorem cip_lookup_self (d : YMap) (cat n : String) (v : Yaml) (hw : wfComps d cat = true) :
    catLookup (copyIntoPure d cat n v) cat n = some v := by
  unfold wfComps at hw
  unfold copyIntoPure
  cases hd : d.find? "components" with
  | none =>
    unfold catLookup
    rw [YMap.find?_push_self d "components" _ hd]
    simp [YMap.find?]
  | some c =>
    rw [hd] at hw
    cases c with
    | map cm =>
      dsimp only []
      dsimp only [] at hw
      have hck : d.hasKey "components" = true := by simp [YMap.hasKey, hd]
      cases hc : cm.find? cat with
      | none =>
        unfold catLookup
        rw [YMap.find?_update_self d "components" _ hck]
        dsimp only []
        rw [YMap.find?_push_self cm cat _ hc]
        simp [YMap.find?]
      | some cv =>
        rw [hc] at hw
        cases cv with
        | map catm =>
          unfold catLookup
          rw [YMap.find?_update_self d "components" _ hck]
          dsimp only []
          rw [YMap.find?_update_self cm cat _ (by simp [YMap.hasKey, hc])]
          dsimp only []
          exact YMap.find?_insert_self catm n v
        | str sv => exact absurd hw (by dsimp only []; simp)
        | int nv => exact absurd hw (by dsimp only []; simp)
        | bool bv => exact absurd hw (by dsimp only []; simp)
        | null => exact absurd hw (by dsimp only []; simp)
        | arr lv => exact absurd hw (by dsimp only []; simp)
    | str sv => exact absurd hw (by dsimp only []; simp)
    | int nv => exact absurd hw (by dsimp only []; simp)
    | bool bv => exact absurd hw (by dsimp only []; simp)
    | null => exact absurd hw (by dsimp only []; simp)
    | arr lv => exact absurd hw (by dsimp only []; simp)

theorem cip_lookup_ne (d : YMap) (cat n : String) (v : Yaml) (n' : String) (hn : n' ≠ n) :
    catLookup (copyIntoPure d cat n v) cat n' = catLookup d cat n' := by
  have hn' : ¬(n = n') := fun h => hn h.symm
  unfold copyIntoPure
  cases hd : d.find? "components" with
  | none =>
    unfold catLookup
    rw [YMap.find?_push_self d "components" _ hd, hd]
    dsimp only []
    simp [YMap.find?, hn']
  | some c =>
    cases c
    case map cm =>
      dsimp only []
      have hck : d.hasKey "components" = true := by simp [YMap.hasKey, hd]
      cases hc : cm.find? cat with
      | none =>
        unfold catLookup
        rw [YMap.find?_update_self d "components" _ hck, hd]
        dsimp only []
        rw [YMap.find?_push_self cm cat _ hc, hc]
        dsimp only []
        simp [YMap.find?, hn']
      | some cv =>
        cases cv
        case map catm =>
          unfold catLookup
          rw [YMap.find?_update_self d "components" _ hck, hd]
          dsimp only []
          rw [YMap.find?_update_self cm cat _ (by simp [YMap.hasKey, hc]), hc]
          dsimp only []
          exact YMap.find?_insert_ne catm n n' v (fun h => hn h.symm)
        all_goals rfl
    all_goals rfl

theorem cip_lookup_other (d : YMap) (cat n : String) (v : Yaml) (cat' n' : String)
    (hc' : cat' ≠ cat) : catLookup (copyIntoPure d cat n v) cat' n' = catLookup d cat' n' := by
  have hcc : ¬(cat = cat') := fun h => hc' h.symm
  unfold copyIntoPure
  cases hd : d.find? "components" with
  | none =>
    unfold catLookup
    rw [YMap.find?_push_self d "components" _ hd, hd]
    dsimp only []
    simp [YMap.find?, hcc]
  | some c =>
    cases c
    case map cm =>
      dsimp only []
      have hck : d.hasKey "components" = true := by simp [YMap.hasKey, hd]
      cases hc : cm.find? cat with
      | none =>
        unfold catLookup
        rw [YMap.find?_update_self d "components" _ hck, hd]
        dsimp only []
        rw [YMap.find?_push_ne cm cat cat' _ (fun h => hc' h.symm)]
      | some cv =>
        cases cv
        case map catm =>
          unfold catLookup
          rw [YMap.find?_update_self d "components" _ hck, hd]
          dsimp only []
          rw [YMap.find?_update_ne cm cat cat' _ (fun h => hc' h.symm)]
        all_goals rfl
    all_goals rfl

theorem cip_wf (d : YMap) (cat n : String) (v : Yaml) (hw : wfComps d cat = true) :
    wfComps (copyIntoPure d cat n v) cat = true := by
  unfold wfComps at hw
  unfold copyIntoPure
  cases hd : d.find? "components" with
  | none =>
    unfold wfComps
    rw [YMap.find?_push_self d "components" _ hd]
    simp [YMap.find?]
  | some c =>
    rw [hd] at hw
    cases c with
    | map cm =>
      dsimp only []
      dsimp only [] at hw
      have hck : d.hasKey "components" = true := by simp [YMap.hasKey, hd]
      cases hc : cm.find? cat with
      | none =>
        unfold wfComps
        rw [YMap.find?_update_self d "components" _ hck]
        dsimp only []
        rw [YMap.find?_push_self cm cat _ hc]
      | some cv =>
        rw [hc] at hw
        cases cv with
        | map catm =>
          unfold wfComps
          rw [YMap.find?_update_self d "components" _ hck]
          dsimp only []
          rw [YMap.find?_update_self cm cat _ (by simp [YMap.hasKey, hc])]
        | str sv => exact absurd hw (by dsimp only []; simp)
        | int nv => exact absurd hw (by dsimp only []; simp)
        | bool bv => exact absurd hw (by dsimp only []; simp)
        | null => exact absurd hw (by dsimp only []; simp)
        | arr lv => exact absurd hw (by dsimp only []; simp)
    | str sv => exact absurd hw (by dsimp only []; simp)
    | int nv => exact absurd hw (by dsimp only []; simp)
    | bool bv => exact absurd hw (by dsimp only []; simp)
    | null => exact absurd hw (by dsimp only []; simp)
    | arr lv => exact absurd hw (by dsimp only []; simp)

theorem cip_wf_other (d : YMap) (cat n : String) (v : Yaml) (cat' : String)
    (hc' : cat' ≠ cat) : wfComps (copyIntoPure d cat n v) cat' = wfComps d cat' := by
  have hcc : ¬(cat = cat') := fun h => hc' h.symm
  unfold copyIntoPure
  cases hd : d.find? "components" with
  | none =>
    unfold wfComps
    rw [YMap.find?_push_self d "components" _ hd, hd]
    dsimp only []
    simp [YMap.find?, hcc]
  | some c =>
    cases c
    case map cm =>
      dsimp only []
      have hck : d.hasKey "components" = true := by simp [YMap.hasKey, hd]
      cases hc : cm.find? cat with
      | none =>
        unfold wfComps
        rw [YMap.find?_update_self d "components" _ hck, hd]
        dsimp only []
        rw [YMap.find?_push_ne cm cat cat' _ (fun h => hc' h.symm)]
      | some cv =>
        cases cv
        case map catm =>
          unfold wfComps
          rw [YMap.find?_update_self d "components" _ hck, hd]
          dsimp only []
          rw [YMap.find?_update_ne cm cat cat' _ (fun h => hc' h.symm)]
        all_goals rfl
    all_goals rfl

theorem cp_find?_ne (s : YMap) (cat : String) (d : YMap) (n k : String)
    (hk : k ≠ "components") : (copyPure s cat d n).find? k = d.find? k := by
  unfold copyPure
  by_cases hdl : (catLookup d cat n).isSome = true
  · rw [if_pos hdl]
  · rw [if_neg hdl]
    cases hsl : catLookup s cat n with
    | none => rfl
    | some v => exact cip_find?_ne d cat n v k hk

theorem cp_wf (s : YMap) (cat : String) (d : YMap) (n : String)
    (hwd : wfComps d cat = true) : wfComps (copyPure s cat d n) cat = true := by
  unfold copyPure
  by_cases hdl : (catLookup d cat n).isSome = true
  · rw [if_pos hdl]; exact hwd
  · rw [if_neg hdl]
    cases hsl : catLookup s cat n with
    | none => exact hwd
    | some v => exact cip_wf d cat n v hwd

theorem cp_wf_other (s : YMap) (cat : String) (d : YMap) (n : String) (cat' : String)
    (hc' : cat' ≠ cat) : wfComps (copyPure s cat d n) cat' = wfComps d cat' := by
  unfold copyPure
  by_cases hdl : (catLookup d cat n).isSome = true
  · rw [if_pos hdl]
  · rw [if_neg hdl]
    cases hsl : catLookup s cat n with
    | none => rfl
    | some v => exact cip_wf_other d cat n v cat' hc'

theorem cp_lookup_other (s : YMap) (cat : String) (d : YMap) (n : String) (cat' n' : String)
    (hc' : cat' ≠ cat) : catLookup (copyPure s cat d n) cat' n' = catLookup d cat' n' := by
  unfold copyPure
  by_cases hdl : (catLookup d cat n).isSome = true
  · rw [if_pos hdl]
  · rw [if_neg hdl]
    cases hsl : catLookup s cat n with
    | none => rfl
    | some v => exact cip_lookup_other d cat n v cat' n' hc'

theorem cp_lookup_ne (s : YMap) (cat : String) (d : YMap) (n n' : String)
    (hn : n' ≠ n) : catLookup (copyPure s cat d n) cat n' = catLookup d cat n' := by
  unfold copyPure
  by_cases hdl : (catLookup d cat n).isSome = true
  · rw [if_pos hdl]
  · rw [if_neg hdl]
    cases hsl : catLookup s cat n with
    | none => rfl
    | some v => exact cip_lookup_ne d cat n v n' hn

theorem cp_preserve (s : YMap) (cat : String) (d : YMap) (n : String) (v : Yaml)
    (h : catLookup d cat n = some v) : copyPure s cat d n = d := by
  unfold copyPure
  rw [h]
  rfl

theorem cp_absent (s : YMap) (cat : String) (d : YMap) (n : String)
    (h1 : catLookup d cat n = none) (h2 : catLookup s cat n = none) :
    copyPure s cat d n = d := by
  unfold copyPure
  rw [h1, h2]
  rfl

theorem cp_main (s : YMap) (cat : String) (d : YMap) (n : String) (v : Yaml)
    (hwd : wfComps d cat = true) (h1 : catLookup d cat n = none)
    (h2 : catLookup s cat n = some v) :
    catLookup (copyPure s cat d n) cat n = some v := by
  unfold copyPure
  rw [h1, h2]
  exact cip_lookup_self d cat n v hwd

theorem foldPure_wf (s : YMap) (cat : String) : ∀ (names : List String) (d : YMap),
    wfComps d cat = true → wfComps (names.foldl (copyPure s cat) d) cat = true
  | [], _, h => h
  | n0 :: rest, d, h => by
    rw [List.foldl_cons]
    exact foldPure_wf s cat rest _ (cp_wf s cat d n0 h)

theorem foldPure_find?_ne (s : YMap) (cat : String) : ∀ (names : List String) (d : YMap)
    (k : String), k ≠ "components" →
    (names.foldl (copyPure s cat) d).find? k = d.find? k
  | [], _, _, _ => rfl
  | n0 :: rest, d, k, hk => by
    rw [List.foldl_cons, foldPure_find?_ne s cat rest _ k hk, cp_find?_ne s cat d n0 k hk]

theorem foldPure_wf_other (s : YMap) (cat : String) : ∀ (names : List String) (d : YMap)
    (cat' : String), cat' ≠ cat →
    wfComps (names.foldl (copyPure s cat) d) cat' = wfComps d cat'
  | [], _, _, _ => rfl
  | n0 :: rest, d, cat', hc' => by
    rw [List.foldl_cons, foldPure_wf_other s cat rest _ cat' hc',
      cp_wf_other s cat d n0 cat' hc']

theorem foldPure_lookup_other (s : YMap) (cat : String) : ∀ (names : List String) (d : YMap)
    (cat' n' : String), cat' ≠ cat →
    catLookup (names.foldl (copyPure s cat) d) cat' n' = catLookup d cat' n'
  | [], _, _, _, _ => rfl
  | n0 :: rest, d, cat', n', hc' => by
    rw [List.foldl_cons, foldPure_lookup_other s cat rest _ cat' n' hc',
      cp_lookup_other s cat d n0 cat' n' hc']

theorem foldPure_preserve (s : YMap) (cat : String) : ∀ (names : List String) (d : YMap)
    (n : String) (v : Yaml), catLookup d cat n = some v →
    catLookup (names.foldl (copyPure s cat) d) cat n = some v
  | [], _, _, _, h => h
  | n0 :: rest, d, n, v, h => by
    rw [List.foldl_cons]
    by_cases hn0 : n0 = n
    · subst hn0
      rw [cp_preserve s cat d n0 v h]
      exact foldPure_preserve s cat rest d n0 v h
    · exact foldPure_preserve s cat rest _ n v
        (by rw [cp_lookup_ne s cat d n0 n (fun hh => hn0 hh.symm)]; exact h)

theorem foldPure_absent (s : YMap) (cat : String) : ∀ (names : List String) (d : YMap)
    (n : String), catLookup d cat n = none → catLookup s cat n = none →
    catLookup (names.foldl (copyPure s cat) d) cat n = none
  | [], _, _, h1, _ => h1
  | n0 :: rest, d, n, h1, h2 => by
    rw [List.foldl_cons]
    by_cases hn0 : n0 = n
    · subst hn0
      rw [cp_absent s cat d n0 h1 h2]
      exact foldPure_absent s cat rest d n0 h1 h2
    · exact foldPure_absent s cat rest _ n
        (by rw [cp_lookup_ne s cat d n0 n (fun hh => hn0 hh.symm)]; exact h1) h2

theorem foldPure_main (s : YMap) (cat : String) : ∀ (names : List String) (d : YMap)
    (n : String) (v : Yaml), n ∈ names → wfComps d cat = true →
    catLookup d cat n = none → catLookup s cat n = some v →
    catLookup (names.foldl (copyPure s cat) d) cat n = some v
  | [], _, _, _, hmem, _, _, _ => absurd hmem (List.not_mem_nil _)
  | n0 :: rest, d, n, v, hmem, hwd, h1, h2 => by
    rw [List.foldl_cons]
    by_cases hn0 : n0 = n
    · subst hn0
      exact foldPure_preserve s cat rest _ n0 v (cp_main s cat d n0 v hwd h1 h2)
    · have hmem' : n ∈ rest := by
        rcases List.mem_cons.mp hmem with h | h
        · exact absurd h.symm hn0
        · exact h
      exact foldPure_main s cat rest _ n v hmem' (cp_wf s cat d n0 hwd)
        (by rw [cp_lookup_ne s cat d n0 n (fun hh => hn0 hh.symm)]; exact h1) h2

theorem copyFoldE_wf (s : YMap) (cat : String) (hws : wfComps s cat = true) :
    ∀ (names : List String) (d : YMap), wfComps d cat = true →
    List.foldlM (copyStepE s cat) d names = .ok (names.foldl (copyPure s cat) d)
  | [], d, _ => by simp [List.foldlM_nil, List.foldl_nil]; rfl
  | n0 :: rest, d, hwd => by
    rw [List.foldlM_cons, copyStepE_wf s cat d n0 hwd hws]
    simp only [Bind.bind, Except.bind]
    rw [List.foldl_cons]
    exact copyFoldE_wf s cat hws rest _ (cp_wf s cat d n0 hwd)

theorem fixCopyE_wf (pre cat : String) (d s : YMap) (pv : Yaml)
    (hp : d.find? "paths" = some pv) (hwd : wfComps d cat = true)
    (hws : wfComps s cat = true) :
    fixCopyE pre cat d s = .ok (((refsY pre pv).dedup).foldl (copyPure s cat) d) := by
  unfold fixCopyE
  rw [hp]
  exact copyFoldE_wf s cat hws ((refsY pre pv).dedup) d hwd

theorem YMap.memPair_of_find? : ∀ (m : YMap) (k : String) (v : Yaml),
    m.find? k = some v → m.memPair k v = true
  | .nil, _, _, h => by simp [YMap.find?] at h
  | .cons k0 v0 rest, k, v, h => by
    simp only [YMap.find?] at h
    by_cases hk0 : k0 = k
    · rw [if_pos hk0] at h
      have hv := Option.some.inj h
      simp [YMap.memPair, hk0, hv]
    · rw [if_neg hk0] at h
      simp [YMap.memPair, YMap.memPair_of_find? rest k v h]

theorem refsMap_of_memPair (pre : String) : ∀ (pm : YMap) (k : String) (v : Yaml) (n : String),
    pm.memPair k v = true → n ∈ refsY pre v → n ∈ refsMap pre pm
  | .nil, k, v, n, h, _ => by simp [YMap.memPair] at h
  | .cons k0 v0 rest, k, v, n, h, hn => by
    simp only [YMap.memPair, Bool.or_eq_true, Bool.and_eq_true, decide_eq_true_eq] at h
    unfold refsMap
    rcases h with ⟨hk0, hv0⟩ | hrest
    · subst hv0
      apply List.mem_append.mpr
      left
      by_cases hr : k0 = "$ref"
      · rw [if_pos hr]
        cases v0 with
        | str s0 =>
          exact absurd hn (by
            rw [show refsY pre (Yaml.str s0) = [] from rfl]
            exact List.not_mem_nil n)
        | int n0 => exact hn
        | bool b0 => exact hn
        | null => exact hn
        | map m0 => exact hn
        | arr l0 => exact hn
      · rw [if_neg hr]
        exact hn
    · exact List.mem_append.mpr (Or.inr (refsMap_of_memPair pre rest k v n hrest hn))

theorem mergeE_find?_other (t s r : YMap) (k : String) (hk1 : k ≠ "paths")
    (hk2 : k ≠ "tags") (h : mergeE t s = .ok r) : r.find? k = t.find? k := by
  unfold mergeE at h
  simp only [Bind.bind, Except.bind] at h
  cases h1 : getPathsKeysE t with
  | error e => rw [h1] at h; exact absurd h (by simp)
  | ok offKeys =>
    rw [h1] at h
    dsimp only [] at h
    cases h2 : compPathsE s with
    | error e => rw [h2] at h; exact absurd h (by simp)
    | ok cp =>
      rw [h2] at h
      dsimp only [] at h
      cases h3 : insertStagedE t (stagePaths offKeys cp) with
      | error e => rw [h3] at h; exact absurd h (by simp)
      | ok o =>
        rw [h3] at h
        dsimp only [] at h
        rw [tagsStepE_find?_ne o r k hk2 h]
        rcases insertStagedE_ok t _ o h3 with ⟨_, ho⟩ | ⟨pm, _, ho⟩
        · rw [ho]
        · rw [ho, YMap.find?_update_ne t "paths" k _ (fun hh => hk1 hh.symm)]

theorem pipelineE_decomp (t s r : YMap) (h : pipelineE t s = .ok r) :
    ∃ m m1, mergeE t s = .ok m ∧ fixCopyE schemasRefHead "schemas" m s = .ok m1 ∧
      fixCopyE paramsRefHead "parameters" m1 s = .ok r := by
  unfold pipelineE at h
  simp only [Bind.bind, Except.bind] at h
  cases h1 : mergeE t s with
  | error e => rw [h1] at h; exact absurd h (by simp)
  | ok m =>
    rw [h1] at h
    dsimp only [] at h
    cases h2 : fixCopyE schemasRefHead "schemas" m s with
    | error e => rw [h2] at h; exact absurd h (by simp)
    | ok m1 =>
      rw [h2] at h
      dsimp only [] at h
      exact ⟨m, m1, rfl, h2, h⟩

theorem mergeE_paths_of_staged (t s r tp sp : YMap) (k : String) (item : Yaml)
    (htp : t.find? "paths" = some (.map tp)) (hsp : s.find? "paths" = some (.map sp))
    (hok : mergeE t s = .ok r)
    (hstaged : (stagePaths tp.keys sp).find? k = some item) :
    ∃ mpm, r.find? "paths" = some (.map mpm) ∧ mpm.find? k = some item := by
  obtain ⟨o, hins, htags⟩ := mergeE_ok_decomp t s r tp sp htp hsp hok
  rcases insertStagedE_ok t _ o hins with ⟨hnil, _⟩ | ⟨pm, hpm, ho⟩
  · rw [hnil] at hstaged
    exact absurd hstaged (by simp [YMap.find?])
  · have hpm' : pm = tp := by
      rw [htp] at hpm
      exact (Yaml.map.inj (Option.some.inj hpm)).symm
    subst hpm'
    refine ⟨insertAllPaths pm (stagePaths pm.keys sp), ?_, ?_⟩
    · rw [tagsStepE_find?_ne o r "paths" (by decide) htags, ho,
        YMap.find?_update_self t "paths" _ (by simp [YMap.hasKey, htp])]
    · rw [insertAllPaths_find?_of_staged (stagePaths pm.keys sp) pm k
        (stageGo_nodup_keys pm.keys sp .nil (by simp [YMap.keys]))
        (by simp [YMap.hasKey, hstaged])]
      exact hstaged

/-- Claim C1: for every target and source document (with well-shaped paths
and components sections), every staged path item, and every definition name
referenced from that item in category schemas or parameters, if the name is
absent from the target's components category, then after the pipeline (merge
plus the missing-definition copy passes) completes, the source's Definition
of that name is present in the result; when the source lacks the name it is
silently skipped and stays absent. -/
theorem C1_staged_refs_copied
    (t s r tp sp : YMap) (cat pre k name : String) (item : Yaml)
    (hcat : (cat = "schemas" ∧ pre = schemasRefHead) ∨
      (cat = "parameters" ∧ pre = paramsRefHead))
    (htp : t.find? "paths" = some (.map tp))
    (hsp : s.find? "paths" = some (.map sp))
    (hwt1 : wfComps t "schemas" = true) (hwt2 : wfComps t "parameters" = true)
    (hws1 : wfComps s "schemas" = true) (hws2 : wfComps s "parameters" = true)
    (hrun : pipelineE t s = .ok r)
    (hstaged : (stagePaths tp.keys sp).find? k = some item)
    (hname : name ∈ refsY pre item)
    (hmiss : catLookup t cat name = none) :
    (∀ v, catLookup s cat name = some v → catLookup r cat name = some v) ∧
    (catLookup s cat name = none → catLookup r cat name = none) := by
  obtain ⟨m, m1, hm, hc1, hc2⟩ := pipelineE_decomp t s r hrun
  obtain ⟨mpm, hmp, hmk⟩ := mergeE_paths_of_staged t s m tp sp k item htp hsp hm hstaged
  have hcomp : m.find? "components" = t.find? "components" :=
    mergeE_find?_other t s m "components" (by decide) (by decide) hm
  have hwm1 : wfComps m "schemas" = true := by
    rw [wfComps_congr m t "schemas" hcomp]
    exact hwt1
  have hwm2 : wfComps m "parameters" = true := by
    rw [wfComps_congr m t "parameters" hcomp]
    exact hwt2
  have hlm : ∀ c n2, catLookup m c n2 = catLookup t c n2 := fun c n2 =>
    catLookup_congr m t c n2 hcomp
  have hinrefs : name ∈ refsY pre (Yaml.map mpm) :=
    refsMap_of_memPair pre mpm k item name (YMap.memPair_of_find? mpm k item hmk) hname
  have hinded : name ∈ (refsY pre (Yaml.map mpm)).dedup := List.mem_dedup.mpr hinrefs
  have he1 : fixCopyE schemasRefHead "schemas" m s
      = .ok (((refsY schemasRefHead (Yaml.map mpm)).dedup).foldl (copyPure s "schemas") m) :=
    fixCopyE_wf schemasRefHead "schemas" m s (Yaml.map mpm) hmp hwm1 hws1
  have hm1 : m1 = ((refsY schemasRefHead (Yaml.map mpm)).dedup).foldl (copyPure s "schemas") m :=
    Except.ok.inj (hc1.symm.trans he1)
  have hm1paths : m1.find? "paths" = some (Yaml.map mpm) := by
    rw [hm1, foldPure_find?_ne s "schemas" _ m "paths" (by decide)]
    exact hmp
  have hwm12 : wfComps m1 "parameters" = true := by
    rw [hm1, foldPure_wf_other s "schemas" _ m "parameters" (by decide)]
    exact hwm2
  have he2 : fixCopyE paramsRefHead "parameters" m1 s
      = .ok (((refsY paramsRefHead (Yaml.map mpm)).dedup).foldl (copyPure s "parameters") m1) :=
    fixCopyE_wf paramsRefHead "parameters" m1 s (Yaml.map mpm) hm1paths hwm12 hws2
  have hr : r = ((refsY paramsRefHead (Yaml.map mpm)).dedup).foldl (copyPure s "parameters") m1 :=
    Except.ok.inj (hc2.symm.trans he2)
  rcases hcat with ⟨hcs, hps⟩ | ⟨hcs, hps⟩
  · subst hcs
    subst hps
    constructor
    · intro v hv
      have hstep1 : catLookup m1 "schemas" name = some v := by
        rw [hm1]
        exact foldPure_main s "schemas" _ m name v hinded hwm1 (by rw [hlm]; exact hmiss) hv
      rw [hr, foldPure_lookup_other s "parameters" _ m1 "schemas" name (by decide)]
      exact hstep1
    · intro hnone
      have hstep1 : catLookup m1 "schemas" name = none := by
        rw [hm1]
        exact foldPure_absent s "schemas" _ m name (by rw [hlm]; exact hmiss) hnone
      rw [hr, foldPure_lookup_other s "parameters" _ m1 "schemas" name (by decide)]
      exact hstep1
  · subst hcs
    subst hps
    have hstep1 : catLookup m1 "parameters" name = catLookup m "parameters" name := by
      rw [hm1]
      exact foldPure_lookup_other s "schemas" _ m "parameters" name (by decide)
    constructor
    · intro v hv
      rw [hr]
      exact foldPure_main s "parameters" _ m1 name v hinded hwm12
        (by rw [hstep1, hlm]; exact hmiss) hv
    · intro hnone
      rw [hr]
      exact foldPure_absent s "parameters" _ m1 name (by rw [hstep1, hlm]; exact hmiss) hnone

def C1def : Yaml := .map (.cons "type" (.str "object") .nil)
def C1rawItem : Yaml := .map (.cons "$ref" (.str "#/components/schemas/Widget") .nil)
def C1t : YMap :=
  .cons "paths" (.map (.cons "/a" (.map .nil) .nil))
    (.cons "components" (.map (.cons "schemas" (.map .nil) .nil)) .nil)
def C1s : YMap :=
  .cons "paths" (.map (.cons "/w" C1rawItem .nil))
    (.cons "components" (.map (.cons "schemas" (.map (.cons "Widget" C1def .nil)) .nil)) .nil)
def C1Wres : YMap :=
  match pipelineE C1t C1s with
  | .ok r => r
  | .error _ => .nil

theorem C1_staged_refs_copied_witness :
    catLookup C1Wres "schemas" "Widget" = some C1def :=
  (C1_staged_refs_copied C1t C1s C1Wres
    (.cons "/a" (.map .nil) .nil) (.cons "/w" C1rawItem .nil)
    "schemas" schemasRefHead "/w" "Widget" (convertPathItem C1rawItem)
    (Or.inl ⟨rfl, rfl⟩) (by decide) (by decide) (by decide) (by decide) (by decide)
    (by decide) (by rfl) (by decide) (by decide) (by decide)).1 C1def (by decide)
